import Mathlib

/-!
# go-irc: line codec, ping responder, connection loop, cache and feed worker

A shallow embedding of `irc/Connection.go` (`Line.Raw`, `NewLine`,
`PingHandler`, `Run`) and of `xml.go` (`RamCache`, `worker`), with the
properties of the specification stated and settled over it.

Go strings are byte sequences.  Every delimiter the code looks at (space,
colon, CR, LF) is a single ASCII byte, so a string is modelled as the list of
its elementary symbols, `List Char`.  Go `int` values are modelled as `Int`;
the lengths involved are far below `2^63`, so no wrap-around can occur.
-/

namespace GoIrc

/-- A Go `string`. -/
abbrev GoString := List Char

/-- Go `error` values created by `errors.New(msg)`. -/
structure GoError where
  msg : String
  deriving DecidableEq, Repr

/-- Result of running a Go function that may return `(v, nil)`, return
`(nil, err)`, or stop with a run-time panic (index or slice out of range). -/
inductive Outcome (α : Type) where
  | ok (v : α)
  | error (e : GoError)
  | abort
  deriving DecidableEq, Repr

namespace Outcome

/-- Sequencing: errors and panics propagate. -/
def bind {α β : Type} (x : Outcome α) (f : α → Outcome β) : Outcome β :=
  match x with
  | ok v => f v
  | error e => error e
  | abort => abort

instance : Monad Outcome where
  pure := Outcome.ok
  bind := Outcome.bind

end Outcome

/-- The function returned a non-nil `error`. -/
def Outcome.isError {α : Type} : Outcome α → Bool
  | .error _ => true
  | _ => false

/-! ## The parts of the Go runtime and of package `strings` the code uses -/

/-- `const TRIM = " \r\n"` -/
def TRIM : GoString := [' ', '\r', '\n']

/-- `s[i]`: panics when `i` is out of range. -/
def At (s : GoString) (i : Int) : Outcome Char :=
  if 0 ≤ i then
    match s.get? i.toNat with
    | some c => .ok c
    | none => .abort
  else .abort

/-- `s[lo:hi]`: panics unless `0 ≤ lo ≤ hi ≤ len(s)`. -/
def Slice (s : GoString) (lo hi : Int) : Outcome GoString :=
  if 0 ≤ lo ∧ lo ≤ hi ∧ hi ≤ (s.length : Int) then
    .ok ((s.drop lo.toNat).take (hi.toNat - lo.toNat))
  else .abort

/-- `s[lo:]`, that is `s[lo:len(s)]`. -/
def SliceFrom (s : GoString) (lo : Int) : Outcome GoString :=
  Slice s lo s.length

/-- `strings.TrimRight(s, cutset)`. -/
def TrimRight (s cutset : GoString) : GoString :=
  (s.reverse.dropWhile (fun c => cutset.contains c)).reverse

/-- `strings.TrimLeft(s, cutset)`. -/
def TrimLeft (s cutset : GoString) : GoString :=
  s.dropWhile (fun c => cutset.contains c)

/-- `strings.Trim(s, cutset)`: all leading and trailing symbols contained in
`cutset` removed. -/
def Trim (s cutset : GoString) : GoString :=
  TrimLeft (TrimRight s cutset) cutset

/-- Search loop of `strings.Index`: `k` is the offset of `s` in the original
string. -/
def IndexAux (substr : GoString) : GoString → Int → Int
  | [], k => if substr.isPrefixOf [] then k else -1
  | c :: cs, k => if substr.isPrefixOf (c :: cs) then k else IndexAux substr cs (k + 1)

/-- `strings.Index(s, substr)`: index of the first instance of `substr` in `s`,
or `-1` if `substr` is not present in `s`. -/
def Index (s substr : GoString) : Int :=
  IndexAux substr s 0

/-- Loop of `strings.Split` (`genSplit` with `n < 0`) for a non-empty
separator: cut at the first instance of `sep`, continue behind it.  Each round
consumes at least one symbol, so `len(s) + 1` rounds of fuel always suffice. -/
def SplitLoop (sep : GoString) : Nat → GoString → List GoString
  | 0, s => [s]
  | fuel + 1, s =>
    let m := Index s sep
    if m < 0 then [s]
    else s.take m.toNat :: SplitLoop sep fuel (s.drop (m.toNat + sep.length))

/-- `strings.Split(s, sep)`: with an empty separator the string is exploded
into its symbols, otherwise it is cut at every instance of `sep`. -/
def Split (s sep : GoString) : List GoString :=
  if sep = [] then s.map (fun c => [c])
  else SplitLoop sep (s.length + 1) s

/-- `strings.Join(elems, sep)`. -/
def Join : List GoString → GoString → GoString
  | [], _ => []
  | [a], _ => a
  | a :: b :: rest, sep => a ++ sep ++ Join (b :: rest) sep

/-! ## `irc/Connection.go` -/

/-- `type Line struct`.  A nil `Arguments` slice and an empty one are both the
empty list: the code only ever takes `len` of it, joins it or copies it. -/
structure Line where
  Prefix : GoString
  Command : GoString
  Arguments : List GoString
  Suffix : GoString
  deriving DecidableEq, Repr

/-- `errors.New("Line is 0 characters long. This is too short")` -/
def errTooShort : GoError := ⟨"Line is 0 characters long. This is too short"⟩

/-- `errors.New("There is no command")` -/
def errNoCommand : GoError := ⟨"There is no command"⟩

/-- `func (el *Line) Raw() (s string)` -/
def Line.Raw (el : Line) : GoString :=
  let s : GoString := []
  let s := if el.Prefix.length > 0 then [':'] ++ el.Prefix ++ [' '] else s
  let s := s ++ el.Command ++ [' ']
  let s := if el.Arguments.length > 0 then s ++ Join el.Arguments [' '] ++ [' '] else s
  let s := if el.Suffix.length > 0 then s ++ [':'] ++ el.Suffix else s
  let s := s ++ ['\r', '\n']
  s

/-- `func NewLine(line string) (*Line, error)` -/
def NewLine (line : GoString) : Outcome Line := do
  let line := Trim line TRIM
  let result : Line := { Prefix := [], Command := [], Arguments := [], Suffix := [] }
  let prefixEnd : Int := -1
  let trailingStart : Int := line.length
  if trailingStart = 0 then
    Outcome.error errTooShort
  else
    -- determine the prefix if one is present
    let c0 ← At line 0
    let (prefixEnd, result) ←
      (if [c0] = [':'] then
        let i := Index line [' ']
        if i ≠ -1 then do
          let p ← Slice line 1 i
          pure (i, { result with Prefix := p })
        else pure (prefixEnd, result)
      else pure (prefixEnd, result) : Outcome (Int × Line))
    -- determine if a suffix is present
    let i := Index line [' ', ':']
    let (trailingStart, result) ←
      (if i ≠ -1 then do
        let sfx ← SliceFrom line (i + 2)
        pure (i, { result with Suffix := sfx })
      else pure (trailingStart, result) : Outcome (Int × Line))
    let params_str ← Slice line (prefixEnd + 1) trailingStart
    let params := Split params_str [' ']
    if params.length = 0 then
      Outcome.error errNoCommand
    else
      let cmd ← (match params.get? 0 with
        | some c => Outcome.ok c
        | none => Outcome.abort)
      let result := { result with Command := cmd }
      let result := if params.length > 1 then { result with Arguments := params.drop 1 } else result
      pure result


/-- `type Event interface`, with its three implementations `*EConnect`,
`*EDisconnect` and `*Line`. -/
inductive Event where
  | EConnect
  | EDisconnect
  | ELine (l : Line)
  deriving DecidableEq, Repr

/-- `type IRC struct`.  A channel is modelled by the sequence of events sent
on it so far, oldest first. -/
structure IRC where
  Tx : List Event
  Rx : List Event
  server : GoString
  deriving DecidableEq, Repr

/-- `func (i *IRC) PingHandler(e Event) bool` -/
def IRC.PingHandler (i : IRC) (e : Event) : IRC × Bool :=
  let handled := false
  let i :=
    match e with
    | .ELine l =>
      if l.Command = ['P', 'I', 'N', 'G'] then
        { i with Tx := i.Tx ++ [Event.ELine
            { Prefix := [], Command := ['P', 'O', 'N', 'G'], Arguments := l.Arguments,
              Suffix := [] }] }
      else i
    | _ => i
  (i, handled)

/-! ## `xml.go`: the in-memory cache -/

/-- Go `map[string]bool`, as the list of its key/value pairs; every key occurs
at most once in a map built by `mapSet` and `mapDelete` from `mapMake`. -/
abbrev GoMap := List (GoString × Bool)

/-- `make(map[string]bool)` -/
def mapMake : GoMap := []

/-- `_, ok := m[k]` -/
def mapHas (m : GoMap) (k : GoString) : Bool :=
  (m.lookup k).isSome

/-- `delete(m, k)` -/
def mapDelete (m : GoMap) (k : GoString) : GoMap :=
  m.filter (fun kv => kv.1 ≠ k)

/-- `m[k] = v` -/
def mapSet (m : GoMap) (k : GoString) (v : Bool) : GoMap :=
  (k, v) :: mapDelete m k

/-- `type RamCache struct` -/
structure RamCache where
  cache : GoMap
  deriving DecidableEq, Repr

/-- `func NewRamCache() *RamCache` -/
def NewRamCache : RamCache :=
  { cache := mapMake }

/-- `func (rc *RamCache) Seen(guid string) bool` -/
def RamCache.Seen (rc : RamCache) (guid : GoString) : Bool :=
  mapHas rc.cache guid

/-- `func (rc *RamCache) Add(guid string) error`: the cache after the call and
the returned error (`none` is `nil`). -/
def RamCache.Add (rc : RamCache) (guid : GoString) : RamCache × Option GoError :=
  ({ rc with cache := mapSet rc.cache guid true }, none)

/-- `func (rc *RamCache) Remove(guid string) error`: the cache after the call
and the returned error (`none` is `nil`). -/
def RamCache.Remove (rc : RamCache) (guid : GoString) : RamCache × Option GoError :=
  ({ rc with cache := mapDelete rc.cache guid }, none)

/-! ## `xml.go`: the feed worker -/

/-- `type FeedItem struct` -/
structure FeedItem where
  Title : GoString
  Description : GoString
  Link : GoString
  Guid : GoString
  deriving DecidableEq, Repr

/-- The anonymous struct type of the field `Channel` of `Feed`. -/
structure FeedChannel where
  Title : GoString
  Link : GoString
  Description : GoString
  Language : GoString
  Items : List FeedItem
  deriving DecidableEq, Repr

/-- `type Feed struct` -/
structure Feed where
  Channel : FeedChannel
  deriving DecidableEq, Repr

/-- A Go `[]byte` value: its `len` bytes, and the bytes of its backing array
that lie behind them, so that `cap(b) = len(data) + len(spare)`. -/
structure ByteSlice where
  data : GoString
  spare : GoString
  deriving DecidableEq, Repr

/-- `b[:hi]`: panics unless `hi ≤ cap(b)`; the result may reach into the spare
bytes of the array. -/
def ByteSlice.upTo (b : ByteSlice) (hi : Nat) : Outcome ByteSlice :=
  if hi ≤ b.data.length + b.spare.length then
    .ok { data := (b.data ++ b.spare).take hi, spare := (b.data ++ b.spare).drop hi }
  else .abort

/-- The pieces of a split as slices of the array of the original: the last one
keeps the spare bytes, the others are cut with `cap = len`. -/
def withSpare (spare : GoString) : List GoString → List ByteSlice
  | [] => []
  | [a] => [{ data := a, spare := spare }]
  | a :: b :: rest => { data := a, spare := [] } :: withSpare spare (b :: rest)

/-- `bytes.SplitN(s, sep, n)` for a non-empty `sep` and `n ≥ 0`: `nil` for
`n = 0`, otherwise at most `n` pieces (and at most `len(s) + 1`), the last one
being the unsplit remainder. -/
def bytesSplitN (s : ByteSlice) (sep : GoString) (n : Nat) : List ByteSlice :=
  if n = 0 then []
  else withSpare s.spare (SplitLoop sep (min n (s.data.length + 1) - 1) s.data)

/-- Lines 113 to 115 of `worker`:
`if string(contents[:4]) == "<?xml" { contents = bytes.SplitN(contents, []byte{'\n'}, 2)[1] }`.
The result is what is handed to `xml.Unmarshal`. -/
def stripDeclaration (contents : ByteSlice) : Outcome ByteSlice := do
  let head ← contents.upTo 4
  if head.data = ['<', '?', 'x', 'm', 'l'] then
    match (bytesSplitN contents ['\n'] 2).get? 1 with
    | some rest => pure rest
    | none => Outcome.abort
  else pure contents

/-- An `io.Reader` handle. -/
abbrev Reader := Nat

/-- `*http.Response`, of which the worker reads the field `Body` only. -/
structure Response where
  Body : Reader
  deriving DecidableEq, Repr

/-- What the outside world answers to the calls of one cycle of the worker.
A Go pointer or interface that may be `nil` is an `Option`; an `error` result
is `none` for `nil`. -/
structure World where
  /-- `os.Open(filePath)` -/
  Open : GoString → Option Reader × Option GoError
  /-- `http.Get(url)` -/
  Get : GoString → Option Response × Option GoError
  /-- `ioutil.ReadAll(body)` -/
  ReadAll : Option Reader → ByteSlice × Option GoError
  /-- `xml.Unmarshal(contents, f)` on a fresh `f = &Feed{}`: `f` after the call,
  and the error. -/
  Unmarshal : GoString → Feed × Option GoError

/-- The variables of `worker` that live across cycles: the cache of the feed
(`rf.cache`, a `RamCache`), the flag `firstrun`, and the items sent on `rf.Rx`
so far, oldest first. -/
structure WorkerState where
  cache : RamCache
  firstrun : Bool
  Rx : List FeedItem
  deriving DecidableEq, Repr

/-- Body of the loop `for _, e := range f.Channel.Items` of `worker`. -/
def itemStep (st : WorkerState) (e : FeedItem) : WorkerState :=
  let id := e.Guid
  let id := if id.length = 0 then e.Title else id
  if st.cache.Seen id then
    st
  else
    let st := { st with cache := (st.cache.Add id).1 }
    if !st.firstrun then { st with Rx := st.Rx ++ [e] } else st

/-- Lines 126 to 143 of `worker`: the loop over the items of the decoded
document, then `firstrun = false`. -/
def processFeed (st : WorkerState) (f : Feed) : WorkerState :=
  let st := f.Channel.Items.foldl itemStep st
  { st with firstrun := false }

/-- `strings.TrimPrefix(s, prefix)` -/
def TrimPrefix (s pre : GoString) : GoString :=
  if pre.isPrefixOf s then s.drop pre.length else s

/-- One round of the loop of `func (rf *RSSFeed) worker()`, from the fetch to
the label `refetch`: the state with which the worker enters the refetch wait,
or `abort` when the round panics. -/
def workerCycle (w : World) (url : GoString) (st : WorkerState) : Outcome WorkerState := do
  let (body, err) ←
    (if "file://".toList.isPrefixOf url then
      let filePath := TrimPrefix url "file://".toList
      pure (w.Open filePath)
    else
      let (res, err) := w.Get url
      match res with
      | some r => pure (some r.Body, err)
      | none => Outcome.abort : Outcome (Option Reader × Option GoError))
  if err.isSome then
    pure st
  else
    let (contents, err) := w.ReadAll body
    if err.isSome then
      pure st
    else
      let contents ← stripDeclaration contents
      let (f, err) := w.Unmarshal contents.data
      if err.isSome then
        pure st
      else
        pure (processFeed st f)

/-! ## `irc/Connection.go`: the connection loop -/

/-- What `Run` does that can be seen from outside, in program order. -/
inductive Action where
  /-- `i.connect()` is called -/
  | dial
  /-- `time.Sleep(seconds * time.Second)` -/
  | sleep (seconds : Nat)
  /-- `i.Tx = make(chan Event)` -/
  | makeTx
  /-- `i.Rx <- e` -/
  | rx (e : Event)
  /-- `go i.writeRoutine(sock)` -/
  | spawnWriter
  /-- `sock.SetReadDeadline(time.Now().Add(time.Second * seconds))` -/
  | setReadDeadline (seconds : Nat)
  /-- `bufio.ReadString('\n')` is called -/
  | read
  /-- `close(i.Tx)` -/
  | closeTx
  deriving DecidableEq, Repr

/-- What the outside world answers to a blocking call of `Run`. -/
inductive Answer where
  /-- `i.connect()` returned an error -/
  | dialFail
  /-- `i.connect()` returned a connection -/
  | dialOk
  /-- `ReadString` returned a line and no error -/
  | readLine (line : GoString)
  /-- `ReadString` returned `io.EOF` -/
  | readEOF
  /-- `ReadString` returned another error -/
  | readErr
  deriving DecidableEq, Repr

/-- Where `Run` is blocked: in `i.connect()` (with `sock == nil`), in
`ReadString` (with `sock != nil`), or nowhere because it has panicked. -/
inductive RunState where
  | dialing
  | reading
  | crashed
  deriving DecidableEq, Repr

/-- Top of the outer loop of `Run` up to the next blocking call: with
`sock == nil` the loop dials; otherwise it starts the writer and enters the
read loop. -/
def loopTop (sockIsNil : Bool) : List Action × RunState :=
  if sockIsNil then ([Action.dial], RunState.dialing)
  else ([Action.spawnWriter, Action.setReadDeadline 60, Action.read], RunState.reading)

/-- The stretch of `Run` between the return of one blocking call and the next
blocking call: the actions it performs and where it blocks next.  An answer to
a call that is not pending cannot arrive and changes nothing. -/
def RunStep : RunState → Answer → List Action × RunState
  | .dialing, .dialFail =>
    -- time.Sleep(10 * time.Second); continue
    let next := loopTop true
    (Action.sleep 10 :: next.1, next.2)
  | .dialing, .dialOk =>
    -- sock = c; i.Tx = make(chan Event); i.Rx <- &EConnect{}
    let next := loopTop false
    (Action.makeTx :: Action.rx Event.EConnect :: next.1, next.2)
  | .reading, .readEOF =>
    -- close(i.Tx); sock = nil; break; i.Rx <- &EDisconnect{}
    let next := loopTop true
    (Action.closeTx :: Action.rx Event.EDisconnect :: next.1, next.2)
  | .reading, .readErr =>
    -- continue
    ([Action.setReadDeadline 60, Action.read], .reading)
  | .reading, .readLine line =>
    match NewLine line with
    | .ok iline => ([Action.rx (Event.ELine iline), Action.setReadDeadline 60, Action.read], .reading)
    | .error _ => ([Action.setReadDeadline 60, Action.read], .reading)
    | .abort => ([], .crashed)
  | st, _ => ([], st)

/-- Run of the loop from a blocked state over a sequence of answers: the
actions performed, in order, and the final state. -/
def RunFrom : RunState → List Answer → List Action × RunState
  | st, [] => ([], st)
  | st, a :: rest =>
    let step := RunStep st a
    let tail := RunFrom step.2 rest
    (step.1 ++ tail.1, tail.2)

/-- `func (i *IRC) Run()`: starting with `sock = nil`, the actions performed
while the outside world gives the listed answers. -/
def Run (answers : List Answer) : List Action :=
  let start := loopTop true
  start.1 ++ (RunFrom start.2 answers).1

/-! ## Vocabulary of the statements -/

/-- Identity of a feed item for deduplication: its Guid if that is non-empty,
else its Title. -/
def identity (e : FeedItem) : GoString :=
  if e.Guid = [] then e.Title else e.Guid

/-- The items a later cycle is to emit: those of the document, in document
order, whose identity the cache had not seen at the start of the cycle and
that no earlier item of the document (`earlier` lists the identities already
passed) shares. -/
def newItems (start : RamCache) : List GoString → List FeedItem → List FeedItem
  | _, [] => []
  | earlier, e :: rest =>
    (if start.Seen (identity e) = false ∧ identity e ∉ earlier then [e] else [])
      ++ newItems start (earlier ++ [identity e]) rest

/-- End of the prefix of a trimmed line: the index of its first space if the
line starts with a colon and has a space, else `-1`. -/
def prefixEnd (line : GoString) : Int :=
  if line.head? = some ':' ∧ Index line [' '] ≠ -1 then Index line [' '] else -1

/-- Start of the trailing parameter of a trimmed line: the index of the first
space-colon if there is one, else the length of the line. -/
def trailingStart (line : GoString) : Int :=
  if Index line [' ', ':'] ≠ -1 then Index line [' ', ':'] else line.length

/-- The parameter region of a trimmed line: what lies between the end of the
prefix and the start of the trailing parameter. -/
def paramRegion (line : GoString) : Outcome GoString :=
  Slice line (prefixEnd line + 1) (trailingStart line)

/-- In a sequence of actions, every Disconnect event sent on Rx comes right
after `close(i.Tx)` and right before a dial attempt. -/
def DisconnectOrdered (t : List Action) : Prop :=
  ∀ pre post, t = pre ++ Action.rx Event.EDisconnect :: post →
    (∃ p, pre = p ++ [Action.closeTx]) ∧ (∃ q, post = Action.dial :: q)

/-- A feed item with the given Guid and Title. -/
def mkItem (guid title : String) : FeedItem :=
  { Title := title.toList, Description := [], Link := [], Guid := guid.toList }

/-- A document with the given items. -/
def mkFeed (items : List FeedItem) : Feed :=
  { Channel := { Title := [], Link := [], Description := [], Language := [], Items := items } }

/-- A feed content that starts with an XML declaration line. -/
def declaredContent : ByteSlice :=
  { data := "<?xml version=\"1.0\"?>\n<rss><channel></channel></rss>".toList,
    spare := List.replicate 16 (Char.ofNat 0) }


/-- The string ends in a symbol of `cutset`. -/
def EndsIn (cutset s : GoString) : Prop :=
  ∃ c, s.getLast? = some c ∧ c ∈ cutset

instance (cutset s : GoString) : Decidable (EndsIn cutset s) :=
  match h : s.getLast? with
  | none => isFalse (by rintro ⟨c, hc, -⟩; rw [h] at hc; cases hc)
  | some c =>
    if hc : c ∈ cutset then isTrue ⟨c, h, hc⟩
    else isFalse (by rintro ⟨d, hd, hm⟩; rw [h] at hd; cases hd; exact hc hm)

/-- A middle parameter as the wire format writes it: non-empty, free of
space, CR and LF, and not starting with a colon. -/
def IsToken (t : GoString) : Prop :=
  t ≠ [] ∧ (∀ c ∈ t, c ∉ TRIM) ∧ t.head? ≠ some ':'

instance (t : GoString) : Decidable (IsToken t) := by
  unfold IsToken; infer_instance

/-- Every symbol of the string is a space, a CR or a LF. -/
def AllTrim (s : GoString) : Prop :=
  ∀ c ∈ s, c ∈ TRIM

instance (s : GoString) : Decidable (AllTrim s) := by
  unfold AllTrim; infer_instance

/-- The middle parameters as they stand on the wire, each one preceded by a
single space: `" " + A1 + ... + " " + An`. -/
def spaced : List GoString → GoString
  | [] => []
  | a :: rest => ' ' :: a ++ spaced rest

/-- A line whose free-text parameter ends in a space. -/
def trailingSpaceLine : Line :=
  { Prefix := [], Command := "PRIVMSG".toList, Arguments := ["#go".toList],
    Suffix := "hello ".toList }

/-- A line with every field populated. -/
def welcomeLine : Line :=
  { Prefix := "irc.example.net".toList, Command := "001".toList, Arguments := ["nick".toList],
    Suffix := "Welcome".toList }

/-- The layout the specification gives for a serialized line. -/
def layout (l : Line) : GoString :=
  (if l.Prefix = [] then [] else ":".toList ++ l.Prefix ++ " ".toList)
    ++ (l.Command ++ " ".toList)
    ++ (if l.Arguments = [] then [] else " ".toList.intercalate l.Arguments ++ " ".toList)
    ++ (if l.Suffix = [] then [] else ":".toList ++ l.Suffix)
    ++ "\r\n".toList


/-! ## Lemmas on the modelled library functions -/

section Lemmas

variable {α β : Type}

@[simp] theorem Outcome.ok_bind (v : α) (f : α → Outcome β) :
    (Outcome.ok v >>= f) = f v := rfl

@[simp] theorem Outcome.error_bind (e : GoError) (f : α → Outcome β) :
    ((Outcome.error e : Outcome α) >>= f) = Outcome.error e := rfl

@[simp] theorem Outcome.abort_bind (f : α → Outcome β) :
    ((Outcome.abort : Outcome α) >>= f) = Outcome.abort := rfl

@[simp] theorem Outcome.pure_eq (v : α) : (pure v : Outcome α) = Outcome.ok v := rfl

theorem IndexAux_skip (d : Char) (sub tok r : GoString) (k : Int) (h : d ∉ tok) :
    IndexAux (d :: sub) (tok ++ r) k = IndexAux (d :: sub) r (k + tok.length) := by
  induction tok generalizing k with
  | nil => simp
  | cons t tok ih =>
    have ht : ¬ d = t := fun e => h (by simp [e])
    have htok : d ∉ tok := fun e => h (by simp [e])
    have hp : (d :: sub).isPrefixOf (t :: (tok ++ r)) = false := by
      simp [List.isPrefixOf, ht]
    rw [List.cons_append, IndexAux, hp, if_neg Bool.false_ne_true, ih _ htok, List.length_cons]
    push_cast
    ring_nf

theorem IndexAux_absent (d : Char) (sub s : GoString) (k : Int) (h : d ∉ s) :
    IndexAux (d :: sub) s k = -1 := by
  have := IndexAux_skip d sub s [] k h
  simpa [IndexAux, List.isPrefixOf] using this

theorem Join_cons_head (c : Char) (b : GoString) (ts : List GoString) (sep : GoString) :
    Join ((c :: b) :: ts) sep = c :: Join (b :: ts) sep := by
  cases ts <;> simp [Join]

theorem Join_eq_intercalate (ts : List GoString) (sep : GoString) :
    Join ts sep = sep.intercalate ts := by
  induction ts with
  | nil => simp [Join, List.intercalate]
  | cons a ts ih =>
    cases ts with
    | nil => simp [Join, List.intercalate]
    | cons b rest =>
      simp only [List.intercalate, List.intersperse] at ih ⊢
      simp only [Join]
      rw [ih]
      simp

theorem Join_length_ge (ts : List GoString) : ts.length ≤ (Join ts [' ']).length + 1 := by
  induction ts with
  | nil => simp
  | cons a ts ih =>
    cases ts with
    | nil => simp
    | cons b rest =>
      simp only [Join, List.length_append, List.length_cons, List.length_nil] at ih ⊢
      omega

theorem Join_ne_nil (a : GoString) (ts : List GoString) (sep : GoString) (h : a ≠ []) :
    Join (a :: ts) sep ≠ [] := by
  cases a with
  | nil => exact absurd rfl h
  | cons c a => rw [Join_cons_head]; exact List.cons_ne_nil _ _

theorem SplitLoop_ne_nil (sep : GoString) (fuel : Nat) (s : GoString) :
    SplitLoop sep fuel s ≠ [] := by
  cases fuel with
  | zero => simp [SplitLoop]
  | succ n =>
    simp only [SplitLoop]
    split <;> simp

theorem Split_space_ne_nil (s : GoString) : Split s [' '] ≠ [] := by
  simp only [Split, List.cons_ne_nil, if_false]
  exact SplitLoop_ne_nil _ _ _

theorem IndexAux_bound (sub s : GoString) (k : Int) (hk : 0 ≤ k) :
    IndexAux sub s k = -1 ∨
      (k ≤ IndexAux sub s k ∧ IndexAux sub s k - k + sub.length ≤ s.length) := by
  induction s generalizing k with
  | nil =>
    unfold IndexAux
    split_ifs with h
    · right
      have : sub = [] := by simpa using h
      simp [this]
    · left; rfl
  | cons c cs ih =>
    unfold IndexAux
    split_ifs with h
    · right
      have hl : sub.length ≤ (c :: cs).length := (List.isPrefixOf_iff_prefix.1 h).length_le
      refine ⟨le_refl _, ?_⟩
      simp only [sub_self, zero_add]
      exact_mod_cast hl
    · rcases ih (k + 1) (by omega) with h1 | ⟨h1, h2⟩
      · left; exact h1
      · right
        simp only [List.length_cons]
        push_cast
        constructor <;> omega

/-- The fuel `len(s) + 1` given to `SplitLoop` by `Split` is never used up: any
larger amount gives the same result. -/
theorem SplitLoop_fuel_stable (sep : GoString) (hsep : sep ≠ []) (fuel : Nat) (s : GoString)
    (h : s.length ≤ fuel) : SplitLoop sep (fuel + 1) s = SplitLoop sep fuel s := by
  induction fuel generalizing s with
  | zero =>
    have hs : s = [] := List.length_eq_zero.1 (Nat.le_zero.1 h)
    subst hs
    cases sep with
    | nil => exact absurd rfl hsep
    | cons d sep => simp [SplitLoop, Index, IndexAux, List.isPrefixOf]
  | succ n ih =>
    have e : ∀ (f : Nat) (x : GoString), SplitLoop sep (f + 1) x
        = if Index x sep < 0 then [x]
          else x.take (Index x sep).toNat
            :: SplitLoop sep f (x.drop ((Index x sep).toNat + sep.length)) := fun _ _ => rfl
    rw [e (n + 1) s, e n s]
    by_cases hm : Index s sep < 0
    · simp only [hm, if_true]
    · simp only [hm, if_false]
      congr 1
      apply ih
      have hb := IndexAux_bound sep s 0 (le_refl _)
      have hpos : 0 < sep.length := List.length_pos.2 hsep
      unfold Index at hm
      rw [List.length_drop]
      omega

theorem SplitLoop_Join (toks : List GoString) (hne : toks ≠ [])
    (h : ∀ t ∈ toks, ' ' ∉ t) (fuel : Nat) (hf : toks.length ≤ fuel + 1) :
    SplitLoop [' '] fuel (Join toks [' ']) = toks := by
  induction toks generalizing fuel with
  | nil => exact absurd rfl hne
  | cons a ts ih =>
    have ha : ' ' ∉ a := h a (by simp)
    cases ts with
    | nil =>
      cases fuel with
      | zero => simp [SplitLoop, Join]
      | succ f =>
        have hi : Index a [' '] = -1 := IndexAux_absent ' ' [] a 0 ha
        simp [SplitLoop, Join, hi]
    | cons b rest =>
      cases fuel with
      | zero => simp at hf
      | succ f =>
        have hi : Index (a ++ [' '] ++ Join (b :: rest) [' ']) [' '] = (a.length : Int) := by
          unfold Index
          rw [List.append_assoc, IndexAux_skip ' ' [] a _ 0 ha]
          simp [IndexAux, List.isPrefixOf]
        have hrec := ih (List.cons_ne_nil _ _) (fun t ht => h t (by simp at ht ⊢; tauto)) f
          (by simp at hf ⊢; omega)
        simp only [SplitLoop, Join, hi]
        have hlt : ¬ ((a.length : Int) < 0) := by omega
        simp only [hlt, if_false, Int.toNat_ofNat, List.length_cons, List.length_nil]
        rw [List.append_assoc, List.take_left', List.drop_append (i := 1)]
        · simpa using hrec
        · rfl

theorem Split_Join (toks : List GoString) (hne : toks ≠ []) (h : ∀ t ∈ toks, ' ' ∉ t) :
    Split (Join toks [' ']) [' '] = toks := by
  simp only [Split, List.cons_ne_nil, if_false]
  exact SplitLoop_Join toks hne h _ (Nat.le_succ_of_le (Join_length_ge toks))

theorem IndexAux_spcolon_Join (toks : List GoString) (hne : toks ≠ [])
    (h : ∀ t ∈ toks, ' ' ∉ t ∧ t ≠ [] ∧ t.head? ≠ some ':') (r : GoString) (k : Int) :
    IndexAux [' ', ':'] (Join toks [' '] ++ r) k
      = IndexAux [' ', ':'] r (k + (Join toks [' ']).length) := by
  induction toks generalizing k with
  | nil => exact absurd rfl hne
  | cons a ts ih =>
    have ha : ' ' ∉ a := (h a (by simp)).1
    cases ts with
    | nil => simpa [Join] using IndexAux_skip ' ' [':'] a r k ha
    | cons b rest =>
      obtain ⟨-, hb, hb'⟩ := h b (by simp)
      cases b with
      | nil => exact absurd rfl hb
      | cons c b =>
        have hc : ¬ ':' = c := fun e => hb' (by simp [← e])
        have hrec := ih (List.cons_ne_nil _ _) (fun t ht => h t (by simp at ht ⊢; tauto))
          (k + a.length + 1)
        have hp : [' ', ':'].isPrefixOf (' ' :: (Join ((c :: b) :: rest) [' '] ++ r)) = false := by
          rw [Join_cons_head]
          simp [List.isPrefixOf, hc]
        simp only [Join]
        rw [List.append_assoc, List.append_assoc, IndexAux_skip ' ' [':'] a _ k ha,
          List.singleton_append, IndexAux, hp, if_neg Bool.false_ne_true, hrec]
        congr 1
        simp only [List.length_append, List.length_cons, List.length_nil]
        push_cast
        ring

theorem TrimRight_append (x t : GoString) (hl : ¬ EndsIn TRIM x) (ht : AllTrim t) :
    TrimRight (x ++ t) TRIM = x := by
  show List.rdropWhile (fun c => TRIM.contains c) (x ++ t) = x
  induction t using List.reverseRecOn with
  | nil =>
    rw [List.append_nil, List.rdropWhile_eq_self_iff]
    intro hx hc
    apply hl
    refine ⟨x.getLast hx, List.getLast?_eq_getLast _ hx, ?_⟩
    simpa using hc
  | append_singleton t c ih =>
    have hc : c ∈ TRIM := ht c (by simp)
    rw [← List.append_assoc, List.rdropWhile_concat_pos _ _ _ (by simpa using hc)]
    exact ih (fun d hd => ht d (by simp [hd]))

theorem Trim_append (x t : GoString) (hh : ∀ c, x.head? = some c → c ∉ TRIM)
    (hl : ¬ EndsIn TRIM x) (ht : AllTrim t) : Trim (x ++ t) TRIM = x := by
  unfold Trim
  rw [TrimRight_append x t hl ht]
  cases x with
  | nil => rfl
  | cons c x =>
    have hc : c ∉ TRIM := hh c rfl
    simp [TrimLeft, List.dropWhile, hc]

theorem Trim_eq_nil_iff (s : GoString) : Trim s TRIM = [] ↔ AllTrim s := by
  unfold Trim TrimLeft AllTrim
  rw [List.dropWhile_eq_nil_iff]
  constructor
  · intro h
    have h2 : List.rdropWhile (fun c => TRIM.contains c) s = [] := by
      by_contra hne
      have := List.rdropWhile_last_not (fun c => TRIM.contains c) s hne
      exact this (h _ (List.getLast_mem _))
    rw [List.rdropWhile_eq_nil_iff] at h2
    intro c hc
    simpa using h2 c hc
  · intro h c hc
    have : c ∈ s := (List.rdropWhile_prefix (fun c => TRIM.contains c) s).subset hc
    simpa using h c this

theorem Slice_mid (a b c : GoString) (lo hi : Int) (hlo : lo = a.length)
    (hhi : hi = a.length + b.length) : Slice (a ++ b ++ c) lo hi = Outcome.ok b := by
  subst hlo hhi
  have h1 : (0 : Int) ≤ a.length := by omega
  have h2 : ((a.length : Int) + b.length) ≤ ((a ++ b ++ c).length : Int) := by
    simp only [List.length_append]; push_cast; omega
  have h3 : ((a.length : Int) + b.length).toNat - (a.length : Int).toNat = b.length := by
    omega
  unfold Slice
  rw [if_pos ⟨h1, by omega, h2⟩, h3, Int.toNat_ofNat, List.append_assoc, List.drop_left,
    List.take_left]

theorem NewLine_eval (s line : GoString) (c0 : Char) (rest : GoString)
    (hT : Trim s TRIM = line) (hline : line = c0 :: rest)
    (pe : Int) (P : GoString)
    (hpre : (if [c0] = [':'] then
        (if Index line [' '] ≠ -1 then
          (Slice line 1 (Index line [' '])).bind
            (fun p => Outcome.ok (Index line [' '], p))
        else Outcome.ok (-1, []))
      else Outcome.ok (-1, [])) = Outcome.ok (pe, P))
    (ts : Int) (S : GoString)
    (hsuf : (if Index line [' ', ':'] ≠ -1 then
        (SliceFrom line (Index line [' ', ':'] + 2)).bind
          (fun x => Outcome.ok (Index line [' ', ':'], x))
      else Outcome.ok ((line.length : Int), [])) = Outcome.ok (ts, S))
    (C : GoString) (A : List GoString)
    (hpar : (Slice line (pe + 1) ts).bind (fun x => Outcome.ok (Split x [' ']))
      = Outcome.ok (C :: A)) :
    NewLine s = Outcome.ok { Prefix := P, Command := C, Arguments := A, Suffix := S } := by
  have hAt : At line 0 = Outcome.ok c0 := by simp [At, hline]
  have hlen : ¬ ((line.length : Int) = 0) := by
    rw [hline, List.length_cons]; push_cast; omega
  have e1 : (if [c0] = [':'] then
        (if Index line [' '] ≠ -1 then do
          let p ← Slice line 1 (Index line [' '])
          Outcome.ok (Index line [' '],
            ({ Prefix := p, Command := [], Arguments := [], Suffix := [] } : Line))
        else Outcome.ok (-1, { Prefix := [], Command := [], Arguments := [], Suffix := [] }))
      else Outcome.ok (-1, { Prefix := [], Command := [], Arguments := [], Suffix := [] }))
      = Outcome.ok (pe, ({ Prefix := P, Command := [], Arguments := [], Suffix := [] } : Line)) := by
    split_ifs at hpre ⊢ with h1 h2
    · cases hS : Slice line 1 (Index line [' ']) <;> rw [hS] at hpre <;>
        simp [Outcome.bind] at hpre
      simp [hpre]
    · simp at hpre; simp [hpre]
    · simp at hpre; simp [hpre]
  have e2 : (if Index line [' ', ':'] ≠ -1 then do
        let sfx ← SliceFrom line (Index line [' ', ':'] + 2)
        Outcome.ok (Index line [' ', ':'],
          ({ Prefix := P, Command := [], Arguments := [], Suffix := sfx } : Line))
      else Outcome.ok ((line.length : Int),
          ({ Prefix := P, Command := [], Arguments := [], Suffix := [] } : Line)))
      = Outcome.ok (ts, ({ Prefix := P, Command := [], Arguments := [], Suffix := S } : Line)) := by
    split_ifs at hsuf ⊢ with h1
    · cases hS : SliceFrom line (Index line [' ', ':'] + 2) <;> rw [hS] at hsuf <;>
        simp [Outcome.bind] at hsuf
      simp [hsuf]
    · simp at hsuf; simp [hsuf]
  obtain ⟨ps, hps, hsplit⟩ : ∃ ps, Slice line (pe + 1) ts = Outcome.ok ps
      ∧ Split ps [' '] = C :: A := by
    cases h : Slice line (pe + 1) ts <;> rw [h] at hpar <;> simp [Outcome.bind] at hpar
    exact ⟨_, rfl, hpar⟩
  unfold NewLine
  simp only [hT, hAt, hlen, if_false, Outcome.ok_bind, Outcome.pure_eq]
  rw [e1]
  simp only [Outcome.ok_bind]
  rw [e2]
  simp only [Outcome.ok_bind, hps, hsplit]
  cases A <;> simp

theorem IsToken.no_space {t : GoString} (h : IsToken t) : ' ' ∉ t :=
  fun hm => h.2.1 ' ' hm (by simp [TRIM])

theorem Index_spcolon_wire (pfx J sfx P : GoString) (c : Char) (J' : GoString)
    (hJ : J = c :: J') (hc : c ≠ ':') (hP : ' ' ∉ P)
    (hpfx : pfx = [] ∨ pfx = ':' :: P ++ [' '])
    (hI : ∀ r k, IndexAux [' ', ':'] (J ++ r) k = IndexAux [' ', ':'] r (k + J.length)) :
    Index (pfx ++ J ++ sfx) [' ', ':']
      = IndexAux [' ', ':'] sfx ((pfx.length : Int) + J.length) := by
  unfold Index
  rcases hpfx with rfl | rfl
  · simpa using hI sfx 0
  · have hP' : ' ' ∉ ':' :: P := by simp [hP]
    have hp : [' ', ':'].isPrefixOf (' ' :: (J ++ sfx)) = false := by
      have : ¬ ':' = c := fun e => hc e.symm
      simp [hJ, List.isPrefixOf, this]
    have e : ':' :: P ++ [' '] ++ J ++ sfx = (':' :: P) ++ (' ' :: (J ++ sfx)) := by simp
    rw [e, IndexAux_skip ' ' [':'] _ _ 0 hP', IndexAux, hp, if_neg Bool.false_ne_true, hI]
    congr 1
    simp only [List.length_append, List.length_cons, List.length_nil]
    push_cast
    ring

theorem NewLine_wire (s : GoString) (hasP hasS : Bool) (P S C : GoString) (A : List GoString)
    (htok : ∀ t ∈ C :: A, IsToken t) (hP : ' ' ∉ P)
    (hT : Trim s TRIM = (if hasP then ':' :: P ++ [' '] else []) ++ Join (C :: A) [' ']
      ++ (if hasS then ' ' :: ':' :: S else [])) :
    NewLine s = Outcome.ok
      { Prefix := (if hasP then P else []), Command := C, Arguments := A
        Suffix := (if hasS then S else []) } := by
  have hsp : ∀ t ∈ C :: A, ' ' ∉ t := fun t ht => (htok t ht).no_space
  have htok' : ∀ t ∈ C :: A, ' ' ∉ t ∧ t ≠ [] ∧ t.head? ≠ some ':' :=
    fun t ht => ⟨(htok t ht).no_space, (htok t ht).1, (htok t ht).2.2⟩
  have hI := IndexAux_spcolon_Join (C :: A) (List.cons_ne_nil _ _) htok'
  have hSplit := Split_Join (C :: A) (List.cons_ne_nil _ _) hsp
  obtain ⟨hCne, -, hChead⟩ := htok C (by simp)
  cases C with
  | nil => exact absurd rfl hCne
  | cons c C' =>
  have hc : c ≠ ':' := fun e => hChead (by simp [e])
  have hJ := Join_cons_head c C' A [' ']
  generalize Join ((c :: C') :: A) [' '] = J at hT hI hSplit hJ
  have hnil : IndexAux [' ', ':'] [] ((0 : Int) + J.length) = -1 := by
    simp [IndexAux, List.isPrefixOf]
  have hnilP : IndexAux [' ', ':'] [] (((':' :: P ++ [' ']).length : Int) + J.length) = -1 := by
    simp [IndexAux, List.isPrefixOf]
  have hsc : ∀ k : Int, IndexAux [' ', ':'] (' ' :: ':' :: S) k = k := by
    intro k; simp [IndexAux, List.isPrefixOf]
  have hcc : ¬ [c] = [':'] := by simpa using hc
  have hSlP : ∀ r, Slice (':' :: P ++ [' '] ++ J ++ r) 1 ((':' :: P).length : Int)
      = Outcome.ok P := by
    intro r
    have e : ':' :: P ++ [' '] ++ J ++ r = [':'] ++ P ++ (' ' :: (J ++ r)) := by simp
    rw [e]
    exact Slice_mid [':'] P _ _ _ (by simp) (by simp; ring)
  have hIdxP' : ∀ r, Index (':' :: P ++ [' '] ++ J ++ r) [' '] = ((':' :: P).length : Int) := by
    intro r
    have hP' : ' ' ∉ ':' :: P := by simp [hP]
    have e : ':' :: P ++ [' '] ++ J ++ r = (':' :: P) ++ (' ' :: (J ++ r)) := by simp
    unfold Index
    rw [e, IndexAux_skip ' ' [] _ _ 0 hP']
    simp [IndexAux, List.isPrefixOf]
  have hPne : ¬ ((P.length : Int) + 1 = -1) := by omega
  cases hasP <;> cases hasS <;>
    simp only [Bool.false_eq_true, if_false, if_true] at hT ⊢
  · -- no prefix, no trailing parameter
    have hIdx := Index_spcolon_wire [] J [] P c _ hJ hc hP (Or.inl rfl) hI
    rw [List.length_nil, Nat.cast_zero, hnil] at hIdx
    refine NewLine_eval s _ c (Join (C' :: A) [' '] ++ []) hT (by simp [hJ]) (-1) [] ?_
      (([] ++ J ++ []).length : Int) [] ?_ _ _ ?_
    · rw [if_neg hcc]
    · rw [hIdx]; simp
    · rw [Slice_mid [] J [] _ _ (by simp) (by simp)]
      simp [Outcome.bind, hSplit]
  · -- no prefix, trailing parameter
    have hIdx := Index_spcolon_wire [] J (' ' :: ':' :: S) P c _ hJ hc hP (Or.inl rfl) hI
    rw [hsc] at hIdx
    refine NewLine_eval s _ c (Join (C' :: A) [' '] ++ ' ' :: ':' :: S) hT (by simp [hJ])
      (-1) [] ?_ (J.length : Int) S ?_ _ _ ?_
    · rw [if_neg hcc]
    · have hS : SliceFrom ([] ++ J ++ ' ' :: ':' :: S) ((J.length : Int) + 2)
          = Outcome.ok S := by
        have e : [] ++ J ++ ' ' :: ':' :: S = (J ++ [' ', ':']) ++ S ++ [] := by simp
        unfold SliceFrom
        rw [e]
        exact Slice_mid _ S [] _ _ (by simp) (by simp; omega)
      rw [hIdx]
      simp only [List.length_nil, Nat.cast_zero, zero_add]
      rw [hS]
      have : ¬ ((J.length : Int) = -1) := by omega
      simp [Outcome.bind, this]
    · rw [Slice_mid [] J _ _ _ (by simp) (by simp)]
      simp [Outcome.bind, hSplit]
  · -- prefix, no trailing parameter
    have hIdx := Index_spcolon_wire (':' :: P ++ [' ']) J [] P c _ hJ hc hP (Or.inr rfl) hI
    rw [hnilP] at hIdx
    refine NewLine_eval s _ ':' (P ++ [' '] ++ J ++ []) hT (by simp)
      ((':' :: P).length : Int) P ?_ ((':' :: P ++ [' '] ++ J ++ []).length : Int) [] ?_ _ _ ?_
    · rw [hIdxP' [], hSlP []]
      simp [Outcome.bind, hPne]
    · rw [hIdx]; simp
    · rw [Slice_mid (':' :: P ++ [' ']) J [] _ _ (by simp) (by simp; omega)]
      simp [Outcome.bind, hSplit]
  · -- prefix and trailing parameter
    have hIdx := Index_spcolon_wire (':' :: P ++ [' ']) J (' ' :: ':' :: S) P c _ hJ hc hP
      (Or.inr rfl) hI
    rw [hsc] at hIdx
    refine NewLine_eval s _ ':' (P ++ [' '] ++ J ++ ' ' :: ':' :: S) hT (by simp)
      ((':' :: P).length : Int) P ?_ (((':' :: P ++ [' ']).length : Int) + J.length) S ?_ _ _ ?_
    · rw [hIdxP' _, hSlP _]
      simp [Outcome.bind, hPne]
    · have hS : SliceFrom (':' :: P ++ [' '] ++ J ++ ' ' :: ':' :: S)
          ((((':' :: P ++ [' ']).length : Int) + J.length) + 2) = Outcome.ok S := by
        have e : ':' :: P ++ [' '] ++ J ++ ' ' :: ':' :: S
            = (':' :: P ++ [' '] ++ J ++ [' ', ':']) ++ S ++ [] := by simp
        unfold SliceFrom
        rw [e]
        exact Slice_mid _ S [] _ _ (by simp; ring) (by simp; ring)
      rw [hIdx, hS]
      have : ¬ ((((':' :: P ++ [' ']).length : Int) + J.length) = -1) := by omega
      simp only [ne_eq, this, not_false_eq_true, if_true]
      rfl
    · rw [Slice_mid (':' :: P ++ [' ']) J _ _ _ (by simp) (by simp)]
      simp [Outcome.bind, hSplit]

theorem Join_cons_spaced (C : GoString) (A : List GoString) :
    Join (C :: A) [' '] = C ++ spaced A := by
  induction A generalizing C with
  | nil => simp [Join, spaced]
  | cons a A ih => simp only [Join, spaced, ih a]; simp

theorem EndsIn_append (cutset x y : GoString) (hy : y ≠ []) :
    EndsIn cutset (x ++ y) ↔ EndsIn cutset y := by
  unfold EndsIn
  obtain ⟨c, hc⟩ : ∃ c, y.getLast? = some c := by
    cases h : y.getLast? with
    | none => exact absurd (List.getLast?_eq_none_iff.1 h) hy
    | some c => exact ⟨c, rfl⟩
  simp [List.getLast?_append, hc]

theorem not_EndsIn_of_forall (cutset x : GoString) (h : ∀ c ∈ x, c ∉ cutset) :
    ¬ EndsIn cutset x := by
  rintro ⟨c, hc, hm⟩
  obtain ⟨ys, rfl⟩ := List.getLast?_eq_some_iff.1 hc
  exact h c (by simp) hm

theorem not_EndsIn_Join (toks : List GoString) (h : ∀ t ∈ toks, IsToken t) :
    ¬ EndsIn TRIM (Join toks [' ']) := by
  induction toks with
  | nil => rintro ⟨c, hc, -⟩; simp [Join] at hc
  | cons a ts ih =>
    cases ts with
    | nil => exact not_EndsIn_of_forall TRIM a (h a (by simp)).2.1
    | cons b rest =>
      have hb : IsToken b := h b (by simp)
      simp only [Join]
      rw [EndsIn_append _ _ _ (Join_ne_nil b rest [' '] hb.1)]
      exact ih (fun t ht => h t (by simp at ht ⊢; tauto))

theorem not_EndsIn_colon_cons (S : GoString) (h : ¬ EndsIn TRIM S) :
    ¬ EndsIn TRIM (':' :: S) := by
  cases S with
  | nil => decide
  | cons c S =>
    have e : ':' :: c :: S = [':'] ++ (c :: S) := rfl
    rw [e, EndsIn_append _ _ _ (List.cons_ne_nil _ _)]
    exact h

theorem Trim_wire (hasP hasS : Bool) (P S C : GoString) (A : List GoString) (t : GoString)
    (htok : ∀ t ∈ C :: A, IsToken t) (hS : ¬ EndsIn TRIM S) (ht : AllTrim t) :
    Trim ((if hasP then ':' :: P ++ [' '] else []) ++ Join (C :: A) [' ']
        ++ (if hasS then ' ' :: ':' :: S else []) ++ t) TRIM
      = (if hasP then ':' :: P ++ [' '] else []) ++ Join (C :: A) [' ']
        ++ (if hasS then ' ' :: ':' :: S else []) := by
  have hJne : Join (C :: A) [' '] ≠ [] := Join_ne_nil C A [' '] (htok C (by simp)).1
  have hJend := not_EndsIn_Join (C :: A) htok
  obtain ⟨hCne, hCtrim, -⟩ := htok C (by simp)
  apply Trim_append _ _ _ _ ht
  · intro c hc
    cases hasP
    · cases C with
      | nil => exact absurd rfl hCne
      | cons c' C' =>
        rw [Join_cons_head] at hc
        simp at hc
        subst hc
        exact hCtrim _ (by simp)
    · simp at hc
      subst hc
      decide
  · cases hasS
    · simp only [Bool.false_eq_true, if_false, List.append_nil]
      rw [EndsIn_append _ _ _ hJne]
      exact hJend
    · simp only [if_true]
      have e : ∀ x : GoString, x ++ ' ' :: ':' :: S = (x ++ [' ']) ++ (':' :: S) := by simp
      rw [e, EndsIn_append _ _ _ (List.cons_ne_nil _ _)]
      exact not_EndsIn_colon_cons S hS

theorem NewLine_wire_terminated (hasP hasS : Bool) (P S C : GoString) (A : List GoString)
    (t : GoString) (htok : ∀ t ∈ C :: A, IsToken t) (hP : ' ' ∉ P) (hS : ¬ EndsIn TRIM S)
    (ht : AllTrim t) :
    NewLine ((if hasP then ':' :: P ++ [' '] else []) ++ Join (C :: A) [' ']
        ++ (if hasS then ' ' :: ':' :: S else []) ++ t)
      = Outcome.ok
        { Prefix := (if hasP then P else []), Command := C, Arguments := A
          Suffix := (if hasS then S else []) } :=
  NewLine_wire _ hasP hasS P S C A htok hP (Trim_wire hasP hasS P S C A t htok hS ht)

theorem mapHas_mapDelete (m : GoMap) (k : GoString) : mapHas (mapDelete m k) k = false := by
  induction m with
  | nil => rfl
  | cons kv m ih =>
    obtain ⟨k', v⟩ := kv
    by_cases hk : k' = k
    · simpa [mapDelete, hk] using ih
    · have hk' : (k == k') = false := by simpa using fun e => hk e.symm
      have hf : List.filter (fun kv : GoString × Bool => decide (kv.1 ≠ k)) ((k', v) :: m)
          = (k', v) :: List.filter (fun kv : GoString × Bool => decide (kv.1 ≠ k)) m := by
        simp [List.filter, hk]
      simp only [mapHas, mapDelete] at ih ⊢
      rw [hf]
      simp only [List.lookup, hk']
      exact ih

theorem mapHas_mapSet (m : GoMap) (k : GoString) (v : Bool) : mapHas (mapSet m k v) k = true := by
  simp [mapHas, mapSet, List.lookup]

theorem Outcome.isError_bind (x : Outcome α) (f : α → Outcome β)
    (hx : x.isError = false) (hf : ∀ v, (f v).isError = false) :
    (x >>= f).isError = false := by
  cases x with
  | ok v => exact hf v
  | error e => simp [Outcome.isError] at hx
  | abort => rfl

theorem Slice_isError (s : GoString) (lo hi : Int) : (Slice s lo hi).isError = false := by
  unfold Slice; split <;> rfl

theorem Split_length_ne_zero (s : GoString) : ¬ (Split s [' ']).length = 0 := by
  intro h
  exact Split_space_ne_nil s (List.length_eq_zero.1 h)

theorem NewLine_isError_false (s : GoString) (h : Trim s TRIM ≠ []) :
    (NewLine s).isError = false := by
  obtain ⟨c0, rest, hline⟩ := List.exists_cons_of_ne_nil h
  have hAt : At (Trim s TRIM) 0 = Outcome.ok c0 := by simp [At, hline]
  have hlen : ¬ (((Trim s TRIM).length : Int) = 0) := by
    rw [hline, List.length_cons]; push_cast; omega
  unfold NewLine
  simp only [hAt, hlen, if_false, Outcome.ok_bind, Outcome.pure_eq, Split_length_ne_zero]
  refine Outcome.isError_bind _ _ ?_ (fun d => Outcome.isError_bind _ _ ?_ (fun d1 =>
    Outcome.isError_bind _ _ (Slice_isError _ _ _) (fun ps =>
      Outcome.isError_bind _ _ ?_ (fun cmd => rfl))))
  · split_ifs
    · exact Outcome.isError_bind _ _ (Slice_isError _ _ _) (fun _ => rfl)
    · rfl
    · rfl
  · split_ifs
    · exact Outcome.isError_bind _ _ (Slice_isError _ _ _) (fun _ => rfl)
    · rfl
  · split <;> rfl

theorem NewLine_of_Trim_nil (s : GoString) (h : Trim s TRIM = []) :
    NewLine s = Outcome.error errTooShort := by
  unfold NewLine
  simp [h]

theorem Raw_layout_aux (l : Line) : l.Raw = layout l := by
  obtain ⟨P, C, A, S⟩ := l
  simp only [Line.Raw, layout, ← Join_eq_intercalate]
  cases P <;> cases A <;> cases S <;> simp [String.toList]

end Lemmas

/-! ## The line codec -/

/-- C1, as stated, fails: the line `PRIVMSG #go :hello ` (free text ending in a
space) has a non-empty Command, is serialized to `"PRIVMSG #go :hello \r\n"`,
and parsing that yields the Suffix `"hello"`: the trailing space is trimmed
away, so the Suffix is not reproduced. -/
theorem NewLine_Raw_roundtrip_fails :
    trailingSpaceLine.Command ≠ [] ∧
    NewLine trailingSpaceLine.Raw
      = Outcome.ok { trailingSpaceLine with Suffix := "hello".toList } ∧
    ¬ ∃ r, NewLine trailingSpaceLine.Raw = Outcome.ok r ∧
        r.Prefix = trailingSpaceLine.Prefix ∧ r.Command = trailingSpaceLine.Command ∧
        r.Arguments = trailingSpaceLine.Arguments ∧ r.Suffix = trailingSpaceLine.Suffix := by
  have hev : NewLine trailingSpaceLine.Raw
      = Outcome.ok { trailingSpaceLine with Suffix := "hello".toList } := by decide
  refine ⟨by decide, hev, ?_⟩
  rintro ⟨r, hr, -, -, -, hs⟩
  rw [hev] at hr
  cases hr
  revert hs
  decide

/-- C1, amended: for every Line whose Prefix contains no space, whose Command
and Arguments are tokens (non-empty, free of space, CR and LF, not starting
with a colon) and whose Suffix does not end in a space, CR or LF, parsing the
serialized line succeeds and returns the Line itself: the same Prefix, Command,
Arguments and Suffix. -/
theorem NewLine_Raw_roundtrip (l : Line) (hP : ' ' ∉ l.Prefix) (hC : IsToken l.Command)
    (hA : ∀ a ∈ l.Arguments, IsToken a) (hS : ¬ EndsIn TRIM l.Suffix) :
    NewLine l.Raw = Outcome.ok l := by
  obtain ⟨P, C, A, S⟩ := l
  simp only at hP hC hA hS
  have htok : ∀ t ∈ C :: A, IsToken t := by
    intro t ht
    rcases List.mem_cons.1 ht with rfl | h
    · exact hC
    · exact hA t h
  have hJ : (C ++ [' ']) ++ (if A.length > 0 then Join A [' '] ++ [' '] else [])
      = Join (C :: A) [' '] ++ [' '] := by
    cases A with
    | nil => simp [Join]
    | cons a A => simp [Join]
  have hraw : Line.Raw ⟨P, C, A, S⟩
      = (if !P.isEmpty then ':' :: P ++ [' '] else []) ++ Join (C :: A) [' ']
        ++ (if !S.isEmpty then ' ' :: ':' :: S else [])
        ++ (if !S.isEmpty then ['\r', '\n'] else [' ', '\r', '\n']) := by
    have hraw0 : Line.Raw ⟨P, C, A, S⟩
        = (if P.length > 0 then [':'] ++ P ++ [' '] else [])
          ++ ((C ++ [' ']) ++ (if A.length > 0 then Join A [' '] ++ [' '] else []))
          ++ (if S.length > 0 then [':'] ++ S else []) ++ ['\r', '\n'] := by
      simp only [Line.Raw]
      split_ifs <;> simp
    rw [hraw0, hJ]
    cases P <;> cases S <;> simp
  have ht : AllTrim (if !S.isEmpty then ['\r', '\n'] else [' ', '\r', '\n']) := by
    split_ifs <;> decide
  rw [hraw, NewLine_wire_terminated (!P.isEmpty) (!S.isEmpty) P S C A _ htok hP hS ht]
  cases P <;> cases S <;> simp

/-- Witness of the amended C1 at the line
`:irc.example.net 001 nick :Welcome`. -/
theorem NewLine_Raw_roundtrip_witness :
    NewLine welcomeLine.Raw = Outcome.ok welcomeLine :=
  NewLine_Raw_roundtrip welcomeLine (by decide) (by decide) (by decide) (by decide)

/-- C2 fails on the code: for the input `":a  :b\r\n"` (a prefix, two spaces,
a trailing parameter) `NewLine` returns a Line, not an error, and the Command
of that Line is the empty string.  The guard `len(params) == 0` never fires,
because `strings.Split` returns one empty token for an empty parameter
region. -/
theorem NewLine_empty_command :
    NewLine ":a  :b\r\n".toList
      = Outcome.ok { Prefix := "a".toList, Command := [], Arguments := [],
                     Suffix := "b".toList } := by
  decide

/-- C3 fails on the code: on the input `":a :b\r\n"` the first space of the
prefixed line is also the start of the trailing marker, so `prefixEnd + 1 = 3`
exceeds `trailingStart = 2` and the slice `line[prefixEnd+1 : trailingStart]`
is out of range: `NewLine` panics instead of returning. -/
theorem NewLine_aborts :
    Index (Trim ":a :b\r\n".toList TRIM) [' '] + 1 = 3 ∧
    Index (Trim ":a :b\r\n".toList TRIM) [' ', ':'] = 2 ∧
    Slice (Trim ":a :b\r\n".toList TRIM) 3 2 = Outcome.abort ∧
    NewLine ":a :b\r\n".toList = Outcome.abort := by
  decide

/-- C4: a fully populated wire line
`":" + P + " " + C + " " + A1 + ... + " " + An + " :" + S + "\r\n"`, with `P`
non-empty and free of space, CR and LF, `C` and every `Ai` tokens, and `S` not
ending in a space, CR or LF, parses to Prefix `P`, Command `C`, Arguments
`[A1..An]` and Suffix `S`. -/
theorem NewLine_full_line (P C S : GoString) (A : List GoString)
    (hP : P ≠ [] ∧ ∀ c ∈ P, c ∉ TRIM) (hC : IsToken C) (hA : ∀ a ∈ A, IsToken a)
    (hS : ¬ EndsIn TRIM S) :
    NewLine ([':'] ++ P ++ [' '] ++ C ++ spaced A ++ [' ', ':'] ++ S ++ ['\r', '\n'])
      = Outcome.ok { Prefix := P, Command := C, Arguments := A, Suffix := S } := by
  have htok : ∀ t ∈ C :: A, IsToken t := by
    intro t ht
    rcases List.mem_cons.1 ht with rfl | h
    · exact hC
    · exact hA t h
  have hP' : ' ' ∉ P := fun hm => hP.2 ' ' hm (by decide)
  have h := NewLine_wire_terminated true true P S C A ['\r', '\n'] htok hP' hS (by decide)
  rw [Join_cons_spaced] at h
  simpa using h

/-- Witness of C4: `":irc.example.net 001 nick :Welcome\r\n"` yields Prefix
`irc.example.net`, Command `001`, Arguments `[nick]`, Suffix `Welcome`. -/
theorem NewLine_full_line_witness :
    NewLine ":irc.example.net 001 nick :Welcome\r\n".toList
      = Outcome.ok { Prefix := "irc.example.net".toList, Command := "001".toList,
                     Arguments := ["nick".toList], Suffix := "Welcome".toList } :=
  NewLine_full_line "irc.example.net".toList "001".toList "Welcome".toList ["nick".toList]
    (by decide) (by decide) (by decide) (by decide)

/-- C5, as stated, fails: parsing `"PING :abc123\r\n"` does not give the
Arguments `["abc123"]`. -/
theorem NewLine_ping_arguments_fails :
    ¬ ∃ r, NewLine "PING :abc123\r\n".toList = Outcome.ok r ∧
        r.Command = "PING".toList ∧ r.Arguments = ["abc123".toList] := by
  have hev : NewLine "PING :abc123\r\n".toList
      = Outcome.ok { Prefix := [], Command := "PING".toList, Arguments := [],
                     Suffix := "abc123".toList } := by decide
  rintro ⟨r, hr, -, ha⟩
  rw [hev] at hr
  cases hr
  revert ha
  decide

/-- C5, amended: `NewLine("PING :abc123\r\n")` succeeds and returns a Line with
Command `PING`, no Arguments, and Suffix `abc123`: the token behind the
trailing marker is the Suffix. -/
theorem NewLine_ping :
    NewLine "PING :abc123\r\n".toList
      = Outcome.ok { Prefix := [], Command := "PING".toList, Arguments := [],
                     Suffix := "abc123".toList } := by
  decide

/-- C6: a line `T0 + " " + T1 + ... + " " + Tn + "\r\n"` made of tokens only
(no prefix, no trailing marker) parses to Prefix `""`, Command `T0`, Arguments
`[T1..Tn]` and Suffix `""`. -/
theorem NewLine_plain_line (T0 : GoString) (Ts : List GoString)
    (h0 : IsToken T0) (hs : ∀ t ∈ Ts, IsToken t) :
    NewLine (T0 ++ spaced Ts ++ ['\r', '\n'])
      = Outcome.ok { Prefix := [], Command := T0, Arguments := Ts, Suffix := [] } := by
  have htok : ∀ t ∈ T0 :: Ts, IsToken t := by
    intro t ht
    rcases List.mem_cons.1 ht with rfl | h
    · exact h0
    · exact hs t h
  have hE : ¬ EndsIn TRIM [] := by decide
  have hN : ' ' ∉ ([] : GoString) := by simp
  have h := NewLine_wire_terminated false false [] [] T0 Ts ['\r', '\n'] htok hN hE (by decide)
  rw [Join_cons_spaced] at h
  simpa using h

/-- Witness of C6: `"NOTICE target hello\r\n"` yields Command `NOTICE`,
Arguments `[target, hello]` and an empty Suffix. -/
theorem NewLine_plain_line_witness :
    NewLine "NOTICE target hello\r\n".toList
      = Outcome.ok { Prefix := [], Command := "NOTICE".toList,
                     Arguments := ["target".toList, "hello".toList], Suffix := [] } :=
  NewLine_plain_line "NOTICE".toList ["target".toList, "hello".toList] (by decide) (by decide)

/-- C7: `NewLine` returns an error exactly when the input is empty after
trimming, which is when it consists of spaces, CRs and LFs only; the error is
then the "too short" one, and the "There is no command" error is returned for
no input. -/
theorem NewLine_error_iff (s : GoString) :
    ((∃ e, NewLine s = Outcome.error e) ↔ Trim s TRIM = []) ∧
    (Trim s TRIM = [] ↔ AllTrim s) ∧
    (∀ e, NewLine s = Outcome.error e → e = errTooShort) ∧
    NewLine s ≠ Outcome.error errNoCommand := by
  have key : ∀ e, NewLine s = Outcome.error e → Trim s TRIM = [] ∧ e = errTooShort := by
    intro e he
    by_cases h : Trim s TRIM = []
    · rw [NewLine_of_Trim_nil s h] at he
      cases he
      exact ⟨h, rfl⟩
    · have := NewLine_isError_false s h
      rw [he] at this
      simp [Outcome.isError] at this
  refine ⟨⟨fun ⟨e, he⟩ => (key e he).1, fun h => ⟨_, NewLine_of_Trim_nil s h⟩⟩,
    Trim_eq_nil_iff s, fun e he => (key e he).2, ?_⟩
  intro he
  have := (key _ he).2
  revert this
  decide

/-- C8: `Raw` produces the documented layout, `:<Prefix> ` only for a
non-empty Prefix, `<Command> `, the Arguments joined by single spaces and
followed by a space only when there are any, `:<Suffix>` only for a non-empty
Suffix, then CRLF; every result ends in CRLF, and the result depends on the
four fields only. -/
theorem Raw_eq_layout (l : Line) :
    l.Raw = layout l ∧
    (∃ body, l.Raw = body ++ "\r\n".toList) ∧
    (∀ l2 : Line, l2.Prefix = l.Prefix ∧ l2.Command = l.Command ∧
      l2.Arguments = l.Arguments ∧ l2.Suffix = l.Suffix → l2.Raw = l.Raw) := by
  have h1 : l.Raw = layout l := by
    obtain ⟨P, C, A, S⟩ := l
    simp only [Line.Raw, layout, ← Join_eq_intercalate]
    cases P <;> cases A <;> cases S <;> simp [String.toList]
  refine ⟨h1, ?_, ?_⟩
  · rw [h1]
    exact ⟨_, rfl⟩
  · rintro ⟨P2, C2, A2, S2⟩ ⟨hp, hc, ha, hs⟩
    obtain ⟨P, C, A, S⟩ := l
    simp only at hp hc ha hs
    subst hp hc ha hs
    rfl

/-! ## The ping responder -/

/-- C9: on a Line whose Command is exactly `PING`, `PingHandler` sends exactly
one event on Tx, a Line with Command `PONG` and the Arguments of the inbound
Line; on a Line with any other Command, on Connect and on Disconnect it sends
nothing. -/
theorem PingHandler_Tx (i : IRC) :
    (∀ l : Line, l.Command = "PING".toList →
      ∃ r : Line, (i.PingHandler (Event.ELine l)).1.Tx = i.Tx ++ [Event.ELine r] ∧
        r.Command = "PONG".toList ∧ r.Arguments = l.Arguments) ∧
    (∀ l : Line, l.Command ≠ "PING".toList → (i.PingHandler (Event.ELine l)).1.Tx = i.Tx) ∧
    (i.PingHandler Event.EConnect).1.Tx = i.Tx ∧
    (i.PingHandler Event.EDisconnect).1.Tx = i.Tx := by
  refine ⟨?_, ?_, rfl, rfl⟩
  · intro l hl
    have hl' : l.Command = ['P', 'I', 'N', 'G'] := hl
    refine ⟨⟨[], ['P', 'O', 'N', 'G'], l.Arguments, []⟩, ?_, rfl, rfl⟩
    simp only [IRC.PingHandler, hl', if_true]
  · intro l hl
    have hl' : ¬ l.Command = ['P', 'I', 'N', 'G'] := hl
    simp only [IRC.PingHandler, hl', if_false]

/-! ## The in-memory cache -/

/-- C10: after `Add(s)` the cache has seen `s`; after `Remove(s)`, also
directly after `Add(s)`, it has not; a cache made by `NewRamCache` has seen
nothing; `Add` and `Remove` return a nil error. -/
theorem RamCache_membership (c : RamCache) (s : GoString) :
    (c.Add s).1.Seen s = true ∧
    (c.Remove s).1.Seen s = false ∧
    ((c.Add s).1.Remove s).1.Seen s = false ∧
    NewRamCache.Seen s = false ∧
    (c.Add s).2 = none ∧
    (c.Remove s).2 = none :=
  ⟨mapHas_mapSet _ _ _, mapHas_mapDelete _ _, mapHas_mapDelete _ _, rfl, rfl, rfl⟩

/-! ## Lemmas on the cache and on the item loop -/

theorem mapHas_mapDelete_ne (m : GoMap) (k t : GoString) (h : t ≠ k) :
    mapHas (mapDelete m k) t = mapHas m t := by
  induction m with
  | nil => rfl
  | cons kv m ih =>
    obtain ⟨k', v⟩ := kv
    simp only [mapHas, mapDelete] at ih ⊢
    by_cases hk : k' = k
    · have hf : List.filter (fun kv : GoString × Bool => decide (kv.1 ≠ k)) ((k', v) :: m)
          = List.filter (fun kv : GoString × Bool => decide (kv.1 ≠ k)) m := by
        simp [List.filter, hk]
      have ht : (t == k') = false := by simpa [hk] using h
      rw [hf, ih]
      simp only [List.lookup, ht]
    · have hf : List.filter (fun kv : GoString × Bool => decide (kv.1 ≠ k)) ((k', v) :: m)
          = (k', v) :: List.filter (fun kv : GoString × Bool => decide (kv.1 ≠ k)) m := by
        simp [List.filter, hk]
      rw [hf]
      by_cases ht : t = k'
      · have ht' : (t == k') = true := by simpa using ht
        simp only [List.lookup, ht']
      · have ht' : (t == k') = false := by simpa using ht
        simp only [List.lookup, ht']
        exact ih

theorem Seen_Add (c : RamCache) (s t : GoString) :
    (c.Add s).1.Seen t = (decide (t = s) || c.Seen t) := by
  by_cases h : t = s
  · subst h
    simp [RamCache.Add, RamCache.Seen, mapHas_mapSet]
  · have ht : (t == s) = false := by simpa using h
    simp only [RamCache.Add, RamCache.Seen, mapSet, mapHas, List.lookup, ht, h, decide_False,
      Bool.false_or]
    exact mapHas_mapDelete_ne c.cache s t h

theorem mapDelete_idem (m : GoMap) (k : GoString) :
    mapDelete (mapDelete m k) k = mapDelete m k := by
  simp [mapDelete, List.filter_filter]

theorem mapSet_idem (m : GoMap) (k : GoString) (v : Bool) :
    mapSet (mapSet m k v) k v = mapSet m k v := by
  have h : mapDelete ((k, v) :: mapDelete m k) k = mapDelete (mapDelete m k) k := by
    simp [mapDelete, List.filter]
  simp only [mapSet, h, mapDelete_idem]

theorem itemStep_eq (st : WorkerState) (e : FeedItem) :
    itemStep st e =
      if st.cache.Seen (identity e) then st
      else if st.firstrun then { st with cache := (st.cache.Add (identity e)).1 }
      else { st with cache := (st.cache.Add (identity e)).1, Rx := st.Rx ++ [e] } := by
  have hid : (if e.Guid.length = 0 then e.Title else e.Guid) = identity e := by
    simp [identity, List.length_eq_zero]
  simp only [itemStep, hid]
  split_ifs <;> simp_all

theorem foldl_itemStep_firstrun (items : List FeedItem) (st : WorkerState) :
    (items.foldl itemStep st).firstrun = st.firstrun := by
  induction items generalizing st with
  | nil => rfl
  | cons e items ih =>
    rw [List.foldl_cons, ih, itemStep_eq]
    split_ifs <;> rfl

theorem foldl_itemStep_mono (items : List FeedItem) (st : WorkerState) (t : GoString)
    (h : st.cache.Seen t = true) : (items.foldl itemStep st).cache.Seen t = true := by
  induction items generalizing st with
  | nil => exact h
  | cons e items ih =>
    rw [List.foldl_cons]
    apply ih
    rw [itemStep_eq]
    split_ifs
    · exact h
    · simp [Seen_Add, h]
    · simp [Seen_Add, h]

theorem itemStep_seen (st : WorkerState) (e : FeedItem) :
    (itemStep st e).cache.Seen (identity e) = true := by
  rw [itemStep_eq]
  split_ifs with h1 h2
  · exact h1
  · simp [Seen_Add]
  · simp [Seen_Add]

theorem foldl_itemStep_seen (items : List FeedItem) (st : WorkerState) (e : FeedItem)
    (he : e ∈ items) : (items.foldl itemStep st).cache.Seen (identity e) = true := by
  induction items generalizing st with
  | nil => cases he
  | cons a items ih =>
    rw [List.foldl_cons]
    rcases List.mem_cons.1 he with rfl | h
    · exact foldl_itemStep_mono items _ _ (itemStep_seen st e)
    · exact ih _ h

theorem foldl_itemStep_first (items : List FeedItem) (st : WorkerState)
    (h : st.firstrun = true) : (items.foldl itemStep st).Rx = st.Rx := by
  induction items generalizing st with
  | nil => rfl
  | cons e items ih =>
    rw [List.foldl_cons, ih]
    · rw [itemStep_eq]
      split_ifs <;> rfl
    · rw [itemStep_eq]
      split_ifs <;> exact h

theorem foldl_itemStep_later (start : RamCache) (items : List FeedItem) (st : WorkerState)
    (earlier : List GoString) (hf : st.firstrun = false)
    (hinv : ∀ t, st.cache.Seen t = (start.Seen t || decide (t ∈ earlier))) :
    (items.foldl itemStep st).Rx = st.Rx ++ newItems start earlier items := by
  induction items generalizing st earlier with
  | nil => simp [newItems]
  | cons e items ih =>
    rw [List.foldl_cons, newItems]
    have hfirst : ¬ st.firstrun = true := by simp [hf]
    by_cases hs : st.cache.Seen (identity e) = true
    · have hstep : itemStep st e = st := by rw [itemStep_eq, if_pos hs]
      have hno : ¬ (start.Seen (identity e) = false ∧ identity e ∉ earlier) := by
        rintro ⟨h1, h2⟩
        rw [hinv, h1] at hs
        simp [h2] at hs
      rw [hstep, if_neg hno, List.nil_append]
      apply ih st (earlier ++ [identity e]) hf
      intro t
      by_cases ht : t = identity e
      · subst ht; simp [hs]
      · simp [hinv t, ht]
    · have hstep : itemStep st e
          = { st with cache := (st.cache.Add (identity e)).1, Rx := st.Rx ++ [e] } := by
        rw [itemStep_eq, if_neg hs, if_neg hfirst]
      have hyes : start.Seen (identity e) = false ∧ identity e ∉ earlier := by
        have := hinv (identity e)
        simp only [Bool.not_eq_true] at hs
        rw [hs] at this
        simpa using this.symm
      have hinv' : ∀ t, (st.cache.Add (identity e)).1.Seen t
          = (start.Seen t || decide (t ∈ earlier ++ [identity e])) := by
        intro t
        simp only [Seen_Add, hinv t, List.mem_append, List.mem_singleton]
        by_cases ht : t = identity e <;> by_cases hm : t ∈ earlier <;> simp [ht, hm]
      have key := ih { cache := (st.cache.Add (identity e)).1, firstrun := st.firstrun,
                       Rx := st.Rx ++ [e] } (earlier ++ [identity e]) hf hinv'
      rw [hstep, if_pos hyes, key]
      simp

theorem foldl_itemStep_all_seen (items : List FeedItem) (st : WorkerState)
    (h : ∀ e ∈ items, st.cache.Seen (identity e) = true) : items.foldl itemStep st = st := by
  induction items with
  | nil => rfl
  | cons e items ih =>
    have hstep : itemStep st e = st := by
      rw [itemStep_eq, if_pos (h e (by simp))]
    rw [List.foldl_cons, hstep]
    exact ih (fun a ha => h a (by simp [ha]))

theorem workerCycle_open_failure (w : World) (url : GoString) (st : WorkerState)
    (hfile : "file://".toList.isPrefixOf url = true)
    (herr : (w.Open (TrimPrefix url "file://".toList)).2.isSome = true) :
    workerCycle w url st = Outcome.ok st := by
  unfold workerCycle
  simp only [hfile, if_true, Outcome.pure_eq, Outcome.ok_bind, herr]

theorem workerCycle_read_failure (w : World) (url : GoString) (st : WorkerState)
    (hfile : "file://".toList.isPrefixOf url = true)
    (hopen : (w.Open (TrimPrefix url "file://".toList)).2.isSome = false)
    (herr : (w.ReadAll (w.Open (TrimPrefix url "file://".toList)).1).2.isSome = true) :
    workerCycle w url st = Outcome.ok st := by
  unfold workerCycle
  simp only [hfile, if_true, Outcome.pure_eq, Outcome.ok_bind, hopen, herr, Bool.false_eq_true,
    if_false]

theorem stripDeclaration_eq (c : ByteSlice) (h : 4 ≤ c.data.length + c.spare.length) :
    stripDeclaration c = Outcome.ok c := by
  unfold stripDeclaration ByteSlice.upTo
  have hlen : ((c.data ++ c.spare).take 4).length = 4 := by
    rw [List.length_take, List.length_append]; omega
  have hne : ¬ (c.data ++ c.spare).take 4 = ['<', '?', 'x', 'm', 'l'] := by
    intro e
    rw [e] at hlen
    simp at hlen
  simp only [if_pos h, Outcome.ok_bind, hne, if_false, Outcome.pure_eq]

theorem workerCycle_decode_failure (w : World) (url : GoString) (st : WorkerState)
    (hfile : "file://".toList.isPrefixOf url = true)
    (hopen : (w.Open (TrimPrefix url "file://".toList)).2.isSome = false)
    (hread : (w.ReadAll (w.Open (TrimPrefix url "file://".toList)).1).2.isSome = false)
    (hcap : 4 ≤ (w.ReadAll (w.Open (TrimPrefix url "file://".toList)).1).1.data.length
      + (w.ReadAll (w.Open (TrimPrefix url "file://".toList)).1).1.spare.length)
    (herr : (w.Unmarshal
      (w.ReadAll (w.Open (TrimPrefix url "file://".toList)).1).1.data).2.isSome = true) :
    workerCycle w url st = Outcome.ok st := by
  unfold workerCycle
  simp only [hfile, if_true, Outcome.pure_eq, Outcome.ok_bind, hopen, hread, Bool.false_eq_true,
    if_false, stripDeclaration_eq _ hcap, herr]

/-! ## The seen-item cache and the feed worker -/

/-- C11: `Add` is idempotent: adding the same identity a second time leaves the
cache as the first `Add` left it, so `Seen(t)` agrees for every `t`. -/
theorem RamCache_Add_idempotent (c : RamCache) (s : GoString) :
    ((c.Add s).1.Add s).1 = (c.Add s).1 ∧
    ∀ t, ((c.Add s).1.Add s).1.Seen t = (c.Add s).1.Seen t := by
  have h : ((c.Add s).1.Add s).1 = (c.Add s).1 := by
    simp [RamCache.Add, mapSet_idem]
  exact ⟨h, fun t => by rw [h]⟩

/-- C12: on the first successful cycle (`firstrun = true`) the item loop sends
nothing on Rx, afterwards the cache has seen the identity of every item of the
document, and `firstrun` is false. -/
theorem processFeed_first_cycle (cache : RamCache) (rx : List FeedItem) (f : Feed) :
    (processFeed { cache := cache, firstrun := true, Rx := rx } f).Rx = rx ∧
    (∀ e ∈ f.Channel.Items,
      (processFeed { cache := cache, firstrun := true, Rx := rx } f).cache.Seen (identity e)
        = true) ∧
    (processFeed { cache := cache, firstrun := true, Rx := rx } f).firstrun = false := by
  refine ⟨?_, ?_, rfl⟩
  · exact foldl_itemStep_first _ _ rfl
  · intro e he
    exact foldl_itemStep_seen _ _ e he

/-- Witness of C12: a first cycle on a feed of three items, from an empty
cache, sends nothing and leaves the three identities cached. -/
theorem processFeed_first_cycle_witness :
    (processFeed { cache := NewRamCache, firstrun := true, Rx := [] }
      (mkFeed [mkItem "g1" "one", mkItem "" "two", mkItem "g3" "three"])).Rx = [] ∧
    (∀ e ∈ [mkItem "g1" "one", mkItem "" "two", mkItem "g3" "three"],
      (processFeed { cache := NewRamCache, firstrun := true, Rx := [] }
        (mkFeed [mkItem "g1" "one", mkItem "" "two", mkItem "g3" "three"])).cache.Seen
          (identity e) = true) ∧
    (processFeed { cache := NewRamCache, firstrun := true, Rx := [] }
      (mkFeed [mkItem "g1" "one", mkItem "" "two", mkItem "g3" "three"])).firstrun = false :=
  processFeed_first_cycle NewRamCache []
    (mkFeed [mkItem "g1" "one", mkItem "" "two", mkItem "g3" "three"])

/-- C13: on a successful cycle that is not the first (`firstrun = false`) the
items sent on Rx are exactly the items of the document, in document order,
whose identity the cache had not seen at the start of the cycle and that did
not occur earlier in the document. -/
theorem processFeed_later_cycle (cache : RamCache) (rx : List FeedItem) (f : Feed) :
    (processFeed { cache := cache, firstrun := false, Rx := rx } f).Rx
      = rx ++ newItems cache [] f.Channel.Items := by
  exact foldl_itemStep_later cache f.Channel.Items _ [] rfl (fun t => by simp)

/-- Witness of C13: with the three identities of the first cycle cached, a
document holding those three items and one new item makes the worker send
exactly the new item. -/
theorem processFeed_later_cycle_witness :
    (processFeed
      (processFeed { cache := NewRamCache, firstrun := true, Rx := [] }
        (mkFeed [mkItem "g1" "one", mkItem "" "two", mkItem "g3" "three"]))
      (mkFeed [mkItem "g1" "one", mkItem "g4" "four", mkItem "" "two",
        mkItem "g3" "three"])).Rx = [mkItem "g4" "four"] := by
  have h := processFeed_later_cycle
    (processFeed { cache := NewRamCache, firstrun := true, Rx := [] }
      (mkFeed [mkItem "g1" "one", mkItem "" "two", mkItem "g3" "three"])).cache []
    (mkFeed [mkItem "g1" "one", mkItem "g4" "four", mkItem "" "two", mkItem "g3" "three"])
  exact h.trans (by decide)

/-- C20: a successful cycle never makes a seen identity unseen, and a second
successful cycle on the same document right after it sends no item and leaves
the cache (indeed the whole state of the worker) unchanged. -/
theorem processFeed_monotone_idempotent (st : WorkerState) (f : Feed) :
    (∀ t, st.cache.Seen t = true → (processFeed st f).cache.Seen t = true) ∧
    (processFeed (processFeed st f) f).Rx = (processFeed st f).Rx ∧
    (processFeed (processFeed st f) f).cache = (processFeed st f).cache ∧
    processFeed (processFeed st f) f = processFeed st f := by
  have hidem : processFeed (processFeed st f) f = processFeed st f := by
    have hseen : ∀ e ∈ f.Channel.Items,
        (processFeed st f).cache.Seen (identity e) = true :=
      fun e he => foldl_itemStep_seen _ _ e he
    show ({ (f.Channel.Items.foldl itemStep (processFeed st f)) with firstrun := false }
      : WorkerState) = processFeed st f
    rw [foldl_itemStep_all_seen _ _ hseen]
    rfl
  refine ⟨fun t ht => foldl_itemStep_mono _ _ t ht, ?_, ?_, hidem⟩
  · rw [hidem]
  · rw [hidem]

/-- C14 fails on the code: `contents[:4]` holds four bytes and is compared
with the five bytes of `<?xml`, so the test never succeeds and nothing is ever
stripped.  The content `declaredContent` begins with `<?xml` and contains a
line feed, yet it is handed to the decoder unchanged, first line included; and
for every content the worker hands over the content itself (or panics, when
`cap(contents) < 4`). -/
theorem stripDeclaration_never_strips :
    "<?xml".toList.isPrefixOf declaredContent.data = true ∧
    '\n' ∈ declaredContent.data ∧
    stripDeclaration declaredContent = Outcome.ok declaredContent ∧
    ∀ c : ByteSlice, stripDeclaration c
      = if 4 ≤ c.data.length + c.spare.length then Outcome.ok c else Outcome.abort := by
  refine ⟨by decide, by decide, by decide, ?_⟩
  intro c
  unfold stripDeclaration ByteSlice.upTo
  split_ifs with h
  · have hlen : ((c.data ++ c.spare).take 4).length = 4 := by
      rw [List.length_take, List.length_append]; omega
    have hne : ¬ (c.data ++ c.spare).take 4 = ['<', '?', 'x', 'm', 'l'] := by
      intro e
      rw [e] at hlen
      simp at hlen
    simp only [Outcome.ok_bind, hne, if_false, Outcome.pure_eq]
  · rfl

/-- C15 fails on the code: when `http.Get` fails it returns a nil response,
and the worker reads `res.Body` before it looks at the error, so the cycle
panics instead of going to the refetch wait.  This holds whatever the state
of the worker and the other answers of the world are. -/
theorem workerCycle_get_failure_aborts (w : World) (st : WorkerState) (err : GoError) :
    workerCycle { w with Get := fun _ => (none, some err) }
      "http://example.org/feed.xml".toList st = Outcome.abort := by
  have hp : "file://".toList.isPrefixOf "http://example.org/feed.xml".toList = false := by
    decide
  unfold workerCycle
  simp only [hp, Bool.false_eq_true, if_false]
  rfl

/-! ## The connection loop -/

theorem RunFrom_dialFails (n : Nat) (rest : List Answer) :
    (RunFrom RunState.dialing (List.replicate n Answer.dialFail ++ rest)).1
      = (List.replicate n [Action.sleep 10, Action.dial]).flatten
        ++ (RunFrom RunState.dialing rest).1 := by
  induction n with
  | zero => simp
  | succ n ih =>
    rw [List.replicate_succ, List.replicate_succ, List.cons_append, RunFrom]
    simp only [RunStep, loopTop, if_true, List.flatten_cons]
    rw [ih]
    simp

theorem dial_sleep_shift (n : Nat) :
    Action.dial :: (List.replicate n [Action.sleep 10, Action.dial]).flatten
      = (List.replicate n [Action.dial, Action.sleep 10]).flatten ++ [Action.dial] := by
  induction n with
  | zero => rfl
  | succ n ih =>
    rw [List.replicate_succ, List.replicate_succ, List.flatten_cons, List.flatten_cons]
    simp only [List.cons_append, List.nil_append]
    rw [ih]

theorem count_flatten_replicate (x : Action) (l : List Action) (n : Nat) :
    (List.replicate n l).flatten.count x = n * l.count x := by
  induction n with
  | zero => simp
  | succ n ih =>
    rw [List.replicate_succ, List.flatten_cons, List.count_append, ih]
    ring

theorem DisconnectOrdered_nil : DisconnectOrdered [] := by
  intro pre post h
  cases pre <;> simp at h

theorem DisconnectOrdered_append (t seg : List Action) (ht : DisconnectOrdered t)
    (hseg : Action.rx Event.EDisconnect ∉ seg) : DisconnectOrdered (t ++ seg) := by
  intro pre post h
  rcases List.append_eq_append_iff.1 h with ⟨a, -, ha⟩ | ⟨c, hc, hc'⟩
  · exact absurd (by rw [ha]; simp) hseg
  · cases c with
    | nil =>
      rw [List.nil_append] at hc'
      exact absurd (by rw [← hc']; simp) hseg
    | cons x c =>
      rw [List.cons_append] at hc'
      obtain ⟨hx, hpost⟩ := List.cons.inj hc'
      subst hx
      obtain ⟨hp, q, hq⟩ := ht pre c hc
      exact ⟨hp, q ++ seg, by rw [hpost, hq]; rfl⟩

theorem DisconnectOrdered_append_disconnect (t : List Action) (ht : DisconnectOrdered t) :
    DisconnectOrdered
      (t ++ [Action.closeTx, Action.rx Event.EDisconnect, Action.dial]) := by
  intro pre post h
  rcases List.append_eq_append_iff.1 h with ⟨a, ha, ha'⟩ | ⟨c, hc, hc'⟩
  · cases a with
    | nil => simp at ha'
    | cons x a =>
      cases a with
      | nil =>
        simp only [List.cons_append, List.nil_append, List.cons.injEq] at ha'
        obtain ⟨hx, -, hpost⟩ := ha'
        exact ⟨⟨t, by rw [ha, ← hx]⟩, [], hpost.symm⟩
      | cons y a =>
        cases a with
        | nil => simp at ha'
        | cons z a => simp at ha'
  · cases c with
    | nil => simp at hc'
    | cons x c =>
      rw [List.cons_append] at hc'
      obtain ⟨hx, hpost⟩ := List.cons.inj hc'
      subst hx
      obtain ⟨hp, q, hq⟩ := ht pre c hc
      exact ⟨hp, q ++ [Action.closeTx, Action.rx Event.EDisconnect, Action.dial],
        by rw [hpost, hq]; rfl⟩

theorem RunStep_disconnect (st : RunState) (a : Answer) :
    Action.rx Event.EDisconnect ∉ (RunStep st a).1 ∨
      (RunStep st a).1 = [Action.closeTx, Action.rx Event.EDisconnect, Action.dial] := by
  cases st <;> cases a <;> simp [RunStep, loopTop]
  split <;> simp

theorem DisconnectOrdered_RunFrom (answers : List Answer) (st : RunState) (t : List Action)
    (ht : DisconnectOrdered t) : DisconnectOrdered (t ++ (RunFrom st answers).1) := by
  induction answers generalizing st t with
  | nil => simpa [RunFrom] using ht
  | cons a rest ih =>
    rw [RunFrom]
    simp only
    rw [← List.append_assoc]
    apply ih
    rcases RunStep_disconnect st a with h | h
    · exact DisconnectOrdered_append t _ ht h
    · rw [h]
      exact DisconnectOrdered_append_disconnect t ht

theorem RunStep_reading_quiet (a : Answer) :
    Action.rx Event.EConnect ∉ (RunStep RunState.reading a).1 ∧
    Action.spawnWriter ∉ (RunStep RunState.reading a).1 ∧
    Action.makeTx ∉ (RunStep RunState.reading a).1 := by
  cases a <;> simp [RunStep, loopTop]
  split <;> simp

/-- C16: started with `sock = nil` and answered by `n` dial failures and then
a success, the loop dials `n + 1` times, sleeps 10 seconds after each failure
and sends nothing on Rx meanwhile; it then makes a fresh Tx, sends one Connect
event, starts one writer and begins to read.  While it reads, no further
Connect is sent, no writer started and no Tx made.  In every run, each
Disconnect event follows `close(i.Tx)` directly and is directly followed by the
next dial attempt. -/
theorem Run_reconnect (n : Nat) :
    Run (List.replicate n Answer.dialFail ++ [Answer.dialOk])
      = (List.replicate n [Action.dial, Action.sleep 10]).flatten
        ++ [Action.dial, Action.makeTx, Action.rx Event.EConnect, Action.spawnWriter,
            Action.setReadDeadline 60, Action.read] ∧
    (Run (List.replicate n Answer.dialFail ++ [Answer.dialOk])).count Action.dial = n + 1 ∧
    (Run (List.replicate n Answer.dialFail ++ [Answer.dialOk])).count (Action.sleep 10) = n ∧
    (∀ more : List Answer,
      Run (List.replicate n Answer.dialFail ++ Answer.dialOk :: more)
        = Run (List.replicate n Answer.dialFail ++ [Answer.dialOk])
          ++ (RunFrom RunState.reading more).1) ∧
    (∀ a : Answer, Action.rx Event.EConnect ∉ (RunStep RunState.reading a).1 ∧
      Action.spawnWriter ∉ (RunStep RunState.reading a).1 ∧
      Action.makeTx ∉ (RunStep RunState.reading a).1) ∧
    (∀ answers : List Answer, DisconnectOrdered (Run answers)) := by
  have hshape : ∀ more : List Answer,
      Run (List.replicate n Answer.dialFail ++ Answer.dialOk :: more)
        = (List.replicate n [Action.dial, Action.sleep 10]).flatten
          ++ [Action.dial, Action.makeTx, Action.rx Event.EConnect, Action.spawnWriter,
              Action.setReadDeadline 60, Action.read]
          ++ (RunFrom RunState.reading more).1 := by
    intro more
    unfold Run
    simp only [loopTop, if_true]
    rw [RunFrom_dialFails, RunFrom]
    simp only [RunStep, loopTop, Bool.false_eq_true, if_false, List.singleton_append]
    rw [← List.cons_append, dial_sleep_shift]
    simp
  have h1 := hshape []
  simp only [RunFrom, List.append_nil] at h1
  refine ⟨h1, ?_, ?_, ?_, RunStep_reading_quiet, ?_⟩
  · rw [h1, List.count_append, count_flatten_replicate]
    have e1 : [Action.dial, Action.sleep 10].count Action.dial = 1 := by decide
    have e2 : [Action.dial, Action.makeTx, Action.rx Event.EConnect, Action.spawnWriter,
        Action.setReadDeadline 60, Action.read].count Action.dial = 1 := by decide
    rw [e1, e2, Nat.mul_one]
  · rw [h1, List.count_append, count_flatten_replicate]
    have e1 : [Action.dial, Action.sleep 10].count (Action.sleep 10) = 1 := by decide
    have e2 : [Action.dial, Action.makeTx, Action.rx Event.EConnect, Action.spawnWriter,
        Action.setReadDeadline 60, Action.read].count (Action.sleep 10) = 0 := by decide
    rw [e1, e2, Nat.mul_one, Nat.add_zero]
  · intro more
    rw [hshape more, h1]
  · intro answers
    unfold Run
    simp only [loopTop, if_true]
    apply DisconnectOrdered_RunFrom
    have := DisconnectOrdered_append [] [Action.dial] DisconnectOrdered_nil (by simp)
    simpa using this

/-! ## The parameter region -/

theorem Outcome.bind_eq_ok {α β : Type} {x : Outcome α} {f : α → Outcome β} {v : β}
    (h : (x >>= f) = Outcome.ok v) : ∃ a, x = Outcome.ok a ∧ f a = Outcome.ok v := by
  cases x with
  | ok a => exact ⟨a, rfl, h⟩
  | error e => cases h
  | abort => cases h

theorem IndexAux_space_cases (s : GoString) (k : Int) :
    (' ' ∉ s ∧ IndexAux [' '] s k = -1) ∨
      ∃ a b, s = a ++ ' ' :: b ∧ ' ' ∉ a ∧ IndexAux [' '] s k = k + a.length := by
  induction s generalizing k with
  | nil => left; simp [IndexAux, List.isPrefixOf]
  | cons c cs ih =>
    by_cases hc : c = ' '
    · right
      subst hc
      exact ⟨[], cs, rfl, by simp, by simp [IndexAux, List.isPrefixOf]⟩
    · have hc' : ¬ ' ' = c := fun e => hc e.symm
      have hp : [' '].isPrefixOf (c :: cs) = false := by simp [List.isPrefixOf, hc']
      rcases ih (k + 1) with ⟨h1, h2⟩ | ⟨a, b, h1, h2, h3⟩
      · left
        refine ⟨by simp [hc', h1], ?_⟩
        rw [IndexAux, hp, if_neg Bool.false_ne_true, h2]
      · right
        refine ⟨c :: a, b, by rw [h1]; rfl, by simp [hc', h2], ?_⟩
        rw [IndexAux, hp, if_neg Bool.false_ne_true, h3, List.length_cons]
        push_cast
        ring

theorem SplitLoop_space_unfold (fuel : Nat) (a b : GoString) (ha : ' ' ∉ a) :
    SplitLoop [' '] (fuel + 1) (a ++ ' ' :: b) = a :: SplitLoop [' '] fuel b := by
  have hi : Index (a ++ ' ' :: b) [' '] = (a.length : Int) := by
    unfold Index
    rw [IndexAux_skip ' ' [] a _ 0 ha]
    simp [IndexAux, List.isPrefixOf]
  have hlt : ¬ ((a.length : Int) < 0) := by omega
  have h1 : (a ++ ' ' :: b).take a.length = a := List.take_left' rfl
  have h2 : (a ++ ' ' :: b).drop (a.length + (0 + 1)) = b := by
    have e : a ++ ' ' :: b = (a ++ [' ']) ++ b := by simp
    rw [e]
    exact List.drop_left' (by simp)
  simp only [SplitLoop, hi, hlt, if_false, Int.toNat_ofNat, List.length_cons, List.length_nil]
  rw [h1, h2]

theorem SplitLoop_space_absent (fuel : Nat) (s : GoString) (hs : ' ' ∉ s) :
    SplitLoop [' '] fuel s = [s] := by
  cases fuel with
  | zero => rfl
  | succ n =>
    have hi : Index s [' '] = -1 := IndexAux_absent ' ' [] s 0 hs
    simp [SplitLoop, hi]

theorem SplitLoop_no_space (fuel : Nat) (s : GoString) (h : s.length < fuel) :
    ∀ p ∈ SplitLoop [' '] fuel s, ' ' ∉ p := by
  induction fuel generalizing s with
  | zero => omega
  | succ n ih =>
    rcases IndexAux_space_cases s 0 with ⟨h1, -⟩ | ⟨a, b, h1, h2, -⟩
    · rw [SplitLoop_space_absent _ _ h1]
      intro p hp
      rw [List.mem_singleton.1 hp]
      exact h1
    · subst h1
      rw [SplitLoop_space_unfold _ _ _ h2]
      intro p hp
      rcases List.mem_cons.1 hp with rfl | hp
      · exact h2
      · refine ih b ?_ p hp
        simp only [List.length_append, List.length_cons] at h
        omega

theorem Join_SplitLoop (fuel : Nat) (s : GoString) :
    Join (SplitLoop [' '] fuel s) [' '] = s := by
  induction fuel generalizing s with
  | zero => rfl
  | succ n ih =>
    rcases IndexAux_space_cases s 0 with ⟨h1, -⟩ | ⟨a, b, h1, h2, -⟩
    · rw [SplitLoop_space_absent _ _ h1]
      rfl
    · subst h1
      rw [SplitLoop_space_unfold _ _ _ h2]
      obtain ⟨x, xs, hx⟩ := List.exists_cons_of_ne_nil (SplitLoop_ne_nil [' '] n b)
      have hb := ih b
      rw [hx] at hb ⊢
      simp only [Join]
      rw [hb]
      simp

theorem Split_space_spec (s : GoString) :
    (∀ p ∈ Split s [' '], ' ' ∉ p) ∧ Join (Split s [' ']) [' '] = s := by
  simp only [Split, List.cons_ne_nil, if_false]
  exact ⟨SplitLoop_no_space _ _ (Nat.lt_succ_self _), Join_SplitLoop _ _⟩

theorem Slice_prefix_no_space (c0 : Char) (rest P : GoString)
    (hi : Index (c0 :: rest) [' '] ≠ -1)
    (hs : Slice (c0 :: rest) 1 (Index (c0 :: rest) [' ']) = Outcome.ok P) : ' ' ∉ P := by
  rcases IndexAux_space_cases (c0 :: rest) 0 with ⟨-, h2⟩ | ⟨a, b, h1, h2, h3⟩
  · exact absurd h2 hi
  · have hidx : Index (c0 :: rest) [' '] = (a.length : Int) := by
      unfold Index; rw [h3]; simp
    rw [hidx] at hs
    unfold Slice at hs
    split_ifs at hs with hc
    · cases hs
      intro hm
      have h4 := List.mem_of_mem_take hm
      have h5 : ' ' ∈ (c0 :: rest).take a.length := by
        have hsub : ((c0 :: rest).drop 1).take (a.length - 1)
            = ((c0 :: rest).take a.length).drop 1 := by
          rw [List.drop_take]
        have : ' ' ∈ ((c0 :: rest).take a.length).drop 1 := by
          rw [← hsub]
          simpa using hm
        exact List.mem_of_mem_drop this
      rw [h1, List.take_left'] at h5
      · exact h2 h5
      · rfl

/-- C17: when `NewLine` succeeds, the Prefix, the Command and every Argument
it returns are free of spaces, and the Command and the Arguments joined by
single spaces are exactly the parameter region of the trimmed line. -/
theorem NewLine_parameters (s : GoString) (r : Line) (h : NewLine s = Outcome.ok r) :
    ' ' ∉ r.Prefix ∧ ' ' ∉ r.Command ∧ (∀ a ∈ r.Arguments, ' ' ∉ a) ∧
    paramRegion (Trim s TRIM) = Outcome.ok (Join (r.Command :: r.Arguments) [' ']) := by
  have hne : Trim s TRIM ≠ [] := by
    intro e
    rw [NewLine_of_Trim_nil s e] at h
    cases h
  obtain ⟨c0, rest, hline⟩ := List.exists_cons_of_ne_nil hne
  have hAt : At (Trim s TRIM) 0 = Outcome.ok c0 := by simp [At, hline]
  have hlen : ¬ (((Trim s TRIM).length : Int) = 0) := by
    rw [hline, List.length_cons]; push_cast; omega
  unfold NewLine at h
  simp only [hAt, hlen, if_false, Outcome.ok_bind, Outcome.pure_eq, Split_length_ne_zero] at h
  obtain ⟨d, hd, h1⟩ := Outcome.bind_eq_ok h
  obtain ⟨d1, hd1, h2⟩ := Outcome.bind_eq_ok h1
  obtain ⟨ps, hps, h3⟩ := Outcome.bind_eq_ok h2
  obtain ⟨cmd, hcmd, hfin⟩ := Outcome.bind_eq_ok h3
  clear h h1 h2 h3
  generalize hL : Trim s TRIM = line at *
  have hdf : d.1 = prefixEnd line ∧ ' ' ∉ d.2.Prefix ∧ d.2.Arguments = [] := by
    unfold prefixEnd
    have hhead : line.head? = some ':' ↔ [c0] = [':'] := by simp [hline]
    split_ifs at hd with h1 h2
    · obtain ⟨P, hP, hd⟩ := Outcome.bind_eq_ok hd
      cases hd
      rw [if_pos ⟨hhead.2 h1, h2⟩]
      refine ⟨rfl, ?_, rfl⟩
      rw [hline] at hP h2
      exact Slice_prefix_no_space c0 rest P h2 hP
    · cases hd
      rw [if_neg (fun hc => h2 hc.2)]
      exact ⟨rfl, by simp, rfl⟩
    · cases hd
      rw [if_neg (fun hc => h1 (hhead.1 hc.1))]
      exact ⟨rfl, by simp, rfl⟩
  have hd1f : d1.1 = trailingStart line ∧ d1.2.Prefix = d.2.Prefix
      ∧ d1.2.Arguments = d.2.Arguments := by
    unfold trailingStart
    split_ifs at hd1 with h1
    · obtain ⟨S, -, hd1⟩ := Outcome.bind_eq_ok hd1
      cases hd1
      rw [if_pos h1]
      exact ⟨rfl, rfl, rfl⟩
    · cases hd1
      rw [if_neg h1]
      exact ⟨rfl, rfl, rfl⟩
  obtain ⟨hnosp, hjoin⟩ := Split_space_spec ps
  obtain ⟨x, xs, hx⟩ := List.exists_cons_of_ne_nil (Split_space_ne_nil ps)
  rw [hx] at hfin hcmd hnosp hjoin
  simp only [List.get?_cons_zero] at hcmd
  cases hcmd
  have hr : r.Prefix = d.2.Prefix ∧ r.Command = cmd ∧ r.Arguments = xs := by
    split_ifs at hfin with hl
    · cases hfin
      exact ⟨hd1f.2.1, rfl, by simp⟩
    · cases hfin
      have hxs : xs = [] := by
        cases xs with
        | nil => rfl
        | cons y ys => simp at hl
      exact ⟨hd1f.2.1, rfl, by rw [hd1f.2.2, hdf.2.2, hxs]⟩
  obtain ⟨hrP, hrC, hrA⟩ := hr
  refine ⟨by rw [hrP]; exact hdf.2.1, by rw [hrC]; exact hnosp cmd (by simp),
    fun a ha => hnosp a (by rw [hrA] at ha; simp [ha]), ?_⟩
  unfold paramRegion
  rw [← hdf.1, ← hd1f.1, hps, hrC, hrA, hjoin]

/-- Witness of C17 at the line `:irc.example.net 001 nick :Welcome`, whose
parameter region is `001 nick`. -/
theorem NewLine_parameters_witness :
    ' ' ∉ welcomeLine.Prefix ∧ ' ' ∉ welcomeLine.Command ∧
    (∀ a ∈ welcomeLine.Arguments, ' ' ∉ a) ∧
    paramRegion (Trim ":irc.example.net 001 nick :Welcome\r\n".toList TRIM)
      = Outcome.ok (Join (welcomeLine.Command :: welcomeLine.Arguments) [' ']) :=
  NewLine_parameters ":irc.example.net 001 nick :Welcome\r\n".toList welcomeLine (by decide)

/-! ## The ping responder, continued -/

/-- C18: `PingHandler` returns false for every event, also for a PING for
which it has sent a PONG. -/
theorem PingHandler_returns_false (i : IRC) (e : Event) :
    (i.PingHandler e).2 = false ∧
    ∀ P A S, (i.PingHandler (Event.ELine ⟨P, "PING".toList, A, S⟩)).2 = false :=
  ⟨rfl, fun _ _ _ => rfl⟩

/-- C19: the reply to a PING carries the Arguments of the PING and nothing
else: whatever the Prefix `P` and Suffix `S` of the inbound Line, the Line sent
has an empty Prefix and an empty Suffix, and it is serialized as `PONG `, the
Arguments joined by single spaces (followed by one space when there are any)
and CRLF. -/
theorem PingHandler_reply (i : IRC) (P S : GoString) (A : List GoString) :
    (i.PingHandler (Event.ELine ⟨P, "PING".toList, A, S⟩)).1.Tx
      = i.Tx ++ [Event.ELine ⟨[], "PONG".toList, A, []⟩] ∧
    Line.Raw ⟨[], "PONG".toList, A, []⟩
      = "PONG ".toList ++ (if A = [] then [] else " ".toList.intercalate A ++ " ".toList)
        ++ "\r\n".toList := by
  refine ⟨rfl, ?_⟩
  have h := (Raw_layout_aux ⟨[], "PONG".toList, A, []⟩)
  simpa [layout] using h

end GoIrc
